import Mathlib

/-!
A verification development for the cryptopuff node.

Machine integers (`int64` in the source) are modelled as `Int`; two's
complement wrap-around is modelled explicitly (`wrap64`) exactly where the
source itself manipulates or checks overflow (the `overflow.Add64` helper and
the big-endian byte encodings).  Byte strings are `List Nat` with each entry
below 256.  The external cryptographic and JSON primitives (MD5, PKCS#1
marshalling, RSA-PSS, `json.Marshal`) live in third-party libraries outside
the repository; they are taken as parameters, bundled in the `Crypto`
structure, and every result below holds for an arbitrary instantiation.
-/

namespace Cryptopuff

/-- A byte string.  `Hash` is the 16-byte MD5 digest type of `hash.go`. -/
abbrev Hash := List Nat

/-- Addresses are opaque byte strings (`address.go`). -/
abbrev Address := List Nat

/-- `var EmptyHash Hash` — the all-zero digest. -/
def EmptyHash : Hash := List.replicate 16 0

/-- `func (h Hash) Valid() bool { return h[0] == 0 && h[1] == 0 && h[2]&0xfc == 0 }` -/
def Hash.Valid (h : Hash) : Bool :=
  h.getD 0 0 == 0 && h.getD 1 0 == 0 && (h.getD 2 0) &&& 0xfc == 0

/-- Bit `i` of a hash counted from the most significant bit of byte 0, the
ordering in which the spec counts "the first 18 bits". -/
def hashBit (h : Hash) (i : Nat) : Bool :=
  Nat.testBit (h.getD (i / 8) 0) (7 - i % 8)

/-- The Go `error` values the modelled code can produce. -/
inductive GoError where
  | errMsg (msg : String)
  | invalidBlock (msg : String) (cause : Option GoError)
  | unknownParent
  | sqlite3Error (code : Nat) (extendedCode : Nat)
  | txError (cause : GoError) (tries : Nat)

/-- Whether an error is an `InvalidBlockError` (the type used for every
validation-rule violation in `db.go`). -/
def GoError.isInvalidBlock : GoError → Bool
  | .invalidBlock _ _ => true
  | _ => false

/-- `type TxOutput struct { Destination Address; Amount int64 }` -/
structure TxOutput where
  Destination : Address
  Amount : Int
deriving DecidableEq

/-- `type Tx struct { TxOutput; Source Address; Fee int64 }` — the Go struct
embeds `TxOutput`; the embedded value is the `TxOut` field here. -/
structure Tx where
  TxOut : TxOutput
  Source : Address
  Fee : Int
deriving DecidableEq

/-- Promoted field of the embedded `TxOutput`. -/
def Tx.Destination (t : Tx) : Address := t.TxOut.Destination

/-- Promoted field of the embedded `TxOutput`. -/
def Tx.Amount (t : Tx) : Int := t.TxOut.Amount

/-- `func (t Tx) RequiredBalance() int64 { return t.Fee + t.Amount }` -/
def Tx.RequiredBalance (t : Tx) : Int := t.Fee + t.Amount

/-- `type SignedTx struct { Tx; Hash Hash; ID TxID; Signature, PublicKey []byte }`.
The embedded `Tx` is the `ToTx` field. -/
structure SignedTx where
  ToTx : Tx
  ID : List Nat
  Signature : List Nat
  PublicKey : List Nat
  Hash : Hash
deriving DecidableEq

def SignedTx.Source (s : SignedTx) : Address := s.ToTx.Source
def SignedTx.Destination (s : SignedTx) : Address := s.ToTx.Destination
def SignedTx.Amount (s : SignedTx) : Int := s.ToTx.Amount
def SignedTx.Fee (s : SignedTx) : Int := s.ToTx.Fee
def SignedTx.RequiredBalance (s : SignedTx) : Int := s.ToTx.RequiredBalance

/-- `type Block struct { Hash Hash; PreviousHash Hash; Height, Nonce int64;
RewardOutput TxOutput; Transactions []SignedTx }` (the `Hash` field is listed
last so that the other fields can mention the `Hash` type). -/
structure Block where
  PreviousHash : Hash
  Height : Int
  Nonce : Int
  RewardOutput : TxOutput
  Transactions : List SignedTx
  Hash : Hash
deriving DecidableEq

/-- The external primitives consumed by the node, over an abstract public-key
type `PK`: MD5, PKCS#1 marshalling and parsing, RSA-PSS verification, and the
canonical-JSON encoders of `encoding/json` for the three record shapes the
code hashes.  All theorems hold for every instantiation. -/
structure Crypto (PK : Type) where
  md5 : List Nat → Hash
  marshalPKCS1PublicKey : PK → List Nat
  parsePKCS1PublicKey : List Nat → Option PK
  verifyPSS : PK → List Nat → List Nat → Bool
  marshalTx : Tx → List Nat
  marshalSignedTx : SignedTx → List Nat
  marshalTxList : List SignedTx → List Nat

section C1

set_option maxRecDepth 4000 in
private lemma byte_eq_zero_iff_testBits :
    ∀ b < 256, ((b = 0) ↔ ∀ j < 8, Nat.testBit b j = false) := by
  decide

set_option maxRecDepth 4000 in
private lemma byte_and_fc_iff_testBits :
    ∀ b < 256, ((b &&& 0xfc = 0) ↔
      (Nat.testBit b 7 = false ∧ Nat.testBit b 6 = false ∧
       Nat.testBit b 5 = false ∧ Nat.testBit b 4 = false ∧
       Nat.testBit b 3 = false ∧ Nat.testBit b 2 = false)) := by
  decide

set_option maxRecDepth 4000 in
private lemma byte_and_fc_iff_lt_four :
    ∀ b < 256, ((b &&& 0xfc = 0) ↔ b < 4) := by
  decide

private lemma first22_iff (b0 b1 b2 : Nat) (rest : List Nat) :
    (∀ i < 22, hashBit (b0 :: b1 :: b2 :: rest) i = false) ↔
      ((∀ j < 8, Nat.testBit b0 j = false) ∧
       (∀ j < 8, Nat.testBit b1 j = false) ∧
       (Nat.testBit b2 7 = false ∧ Nat.testBit b2 6 = false ∧
        Nat.testBit b2 5 = false ∧ Nat.testBit b2 4 = false ∧
        Nat.testBit b2 3 = false ∧ Nat.testBit b2 2 = false)) := by
  constructor
  · intro h
    refine ⟨fun j hj => ?_, fun j hj => ?_,
      h 16 (by omega), h 17 (by omega), h 18 (by omega), h 19 (by omega),
      h 20 (by omega), h 21 (by omega)⟩
    · interval_cases j
      · exact h 7 (by omega)
      · exact h 6 (by omega)
      · exact h 5 (by omega)
      · exact h 4 (by omega)
      · exact h 3 (by omega)
      · exact h 2 (by omega)
      · exact h 1 (by omega)
      · exact h 0 (by omega)
    · interval_cases j
      · exact h 15 (by omega)
      · exact h 14 (by omega)
      · exact h 13 (by omega)
      · exact h 12 (by omega)
      · exact h 11 (by omega)
      · exact h 10 (by omega)
      · exact h 9 (by omega)
      · exact h 8 (by omega)
  · intro ⟨hb0, hb1, hb27, hb26, hb25, hb24, hb23, hb22⟩ i hi
    interval_cases i
    · exact hb0 7 (by omega)
    · exact hb0 6 (by omega)
    · exact hb0 5 (by omega)
    · exact hb0 4 (by omega)
    · exact hb0 3 (by omega)
    · exact hb0 2 (by omega)
    · exact hb0 1 (by omega)
    · exact hb0 0 (by omega)
    · exact hb1 7 (by omega)
    · exact hb1 6 (by omega)
    · exact hb1 5 (by omega)
    · exact hb1 4 (by omega)
    · exact hb1 3 (by omega)
    · exact hb1 2 (by omega)
    · exact hb1 1 (by omega)
    · exact hb1 0 (by omega)
    · exact hb27
    · exact hb26
    · exact hb25
    · exact hb24
    · exact hb23
    · exact hb22

/-- A 16-byte hash whose first 18 bits are zero but whose 19th bit (bit 5 of
byte 2) is set. -/
def counterHashC1 : Hash := [0, 0, 0x20, 0, 0, 0, 0, 0, 0, 0, 0, 0, 0, 0, 0, 0]

/-- **C1 (counterexample).**  `counterHashC1` has its first 18 bits zero yet
fails `Hash.Valid`: the code masks byte 2 with `0xfc`, so it demands the top
*six* bits of byte 2 to vanish (22 leading zero bits in all), not the 18 the
claim states. -/
theorem hash_valid_not_first_18_bits :
    counterHashC1.length = 16 ∧ (∀ b ∈ counterHashC1, b < 256) ∧
    (∀ i < 18, hashBit counterHashC1 i = false) ∧
    Hash.Valid counterHashC1 = false := by
  refine ⟨by decide, by decide, ?_, by decide⟩
  decide

/-- **C1 (amended).**  For a 16-byte hash whose entries are bytes,
`Hash.Valid` holds iff the first **22** bits (counted from the most
significant bit of byte 0) are all zero — equivalently: bytes 0 and 1 are
zero and the top six bits of byte 2 are zero (i.e. byte 2 is below 4).  The
byte-level description in the spec is exactly what the code checks; only the
bit count "18" was wrong. -/
theorem hash_valid_iff_first_22_bits_zero (h : Hash)
    (hlen : h.length = 16) (hbytes : ∀ b ∈ h, b < 256) :
    ((Hash.Valid h = true) ↔ (∀ i < 22, hashBit h i = false)) ∧
    ((Hash.Valid h = true) ↔
      (h.getD 0 0 = 0 ∧ h.getD 1 0 = 0 ∧ h.getD 2 0 < 4)) := by
  match h, hlen with
  | b0 :: b1 :: b2 :: rest, _ =>
    have h0 : b0 < 256 := hbytes b0 (by simp)
    have h1 : b1 < 256 := hbytes b1 (by simp)
    have h2 : b2 < 256 := hbytes b2 (by simp)
    have hv : (Hash.Valid (b0 :: b1 :: b2 :: rest) = true) ↔
        (b0 = 0 ∧ b1 = 0 ∧ b2 &&& 0xfc = 0) := by
      show (b0 == 0 && b1 == 0 && b2 &&& 0xfc == 0) = true ↔ _
      simp [Bool.and_eq_true, and_assoc]
    constructor
    · rw [hv, first22_iff]
      rw [byte_eq_zero_iff_testBits b0 h0, byte_eq_zero_iff_testBits b1 h1,
        byte_and_fc_iff_testBits b2 h2]
    · rw [hv]
      constructor
      · rintro ⟨e0, e1, e2⟩
        exact ⟨e0, e1, (byte_and_fc_iff_lt_four b2 h2).1 e2⟩
      · rintro ⟨e0, e1, e2⟩
        exact ⟨e0, e1, (byte_and_fc_iff_lt_four b2 h2).2 e2⟩

/-- Witness for the amended C1 theorem, at the all-zero hash. -/
theorem hash_valid_iff_first_22_bits_zero_witness :
    ((Hash.Valid EmptyHash = true) ↔ (∀ i < 22, hashBit EmptyHash i = false)) ∧
    ((Hash.Valid EmptyHash = true) ↔
      (EmptyHash.getD 0 0 = 0 ∧ EmptyHash.getD 1 0 = 0 ∧
       EmptyHash.getD 2 0 < 4)) :=
  hash_valid_iff_first_22_bits_zero EmptyHash (by decide) (by decide)

end C1

section C2

/-- The big-endian byte string `binary.BigEndian.PutUint64` produces, written
with shifts the way the Go runtime extracts the bytes. -/
def be64 (v : Nat) : List Nat :=
  [v >>> 56 % 256, v >>> 48 % 256, v >>> 40 % 256, v >>> 32 % 256,
   v >>> 24 % 256, v >>> 16 % 256, v >>> 8 % 256, v % 256]

/-- The two's-complement `uint64` image of an `int64` value. -/
def int64ToUint64 (i : Int) : Nat := (i % (2 ^ 64 : Int)).toNat

/-- `binary.Write(h, binary.BigEndian, v)` for an `int64` argument: the eight
big-endian bytes of the two's-complement image. -/
def writeInt64BE (i : Int) : List Nat := be64 (int64ToUint64 i)

variable {PK : Type}

/-- `func (s *SignedTx) UpdateHash() error` — MD5 of the canonical JSON
encoding of the whole `SignedTx` (`json.Marshal` of the model is total, so
the error branch of the source cannot fire). -/
def SignedTx.UpdateHash (C : Crypto PK) (s : SignedTx) : SignedTx :=
  { s with Hash := C.md5 (C.marshalSignedTx s) }

/-- `func (b *Block) UpdateHash() error` translated write-by-write: the MD5
hasher state is the list of bytes written so far, in the order of the
`h.Write` / `binary.Write` calls of `block.go`. -/
def Block.UpdateHash (C : Crypto PK) (b : Block) : Block :=
  let txListHash := C.md5 (C.marshalTxList b.Transactions)
  let st : List Nat := []
  let st := st ++ b.PreviousHash
  let st := st ++ writeInt64BE b.Height
  let st := st ++ writeInt64BE b.Nonce
  let st := st ++ writeInt64BE (Int.ofNat b.RewardOutput.Destination.length)
  let st := st ++ b.RewardOutput.Destination
  let st := st ++ writeInt64BE b.RewardOutput.Amount
  let st := st ++ txListHash
  { b with Hash := C.md5 st,
           Transactions := b.Transactions.map (SignedTx.UpdateHash C) }

/-- The spec's phrasing of a big-endian 64-bit integer: byte `j` holds the
`j`-th base-256 digit from the most significant end. -/
def be64Spec (v : Nat) : List Nat :=
  (List.range 8).map (fun j => v / 2 ^ (8 * (7 - j)) % 256)

private lemma be64_eq_be64Spec (v : Nat) : be64 v = be64Spec v := by
  simp [be64, be64Spec, List.range_succ, Nat.shiftRight_eq_div_pow]

/-- **C2.**  `Block.UpdateHash` sets the block hash to the MD5 of the byte
concatenation `PreviousHash ‖ Height ‖ Nonce ‖ len(RewardOutput.Destination)
‖ RewardOutput.Destination ‖ RewardOutput.Amount ‖ TxListHash`, where the
integers appear as big-endian 64-bit values (two's complement for the signed
fields) and `TxListHash` is the MD5 of the canonical JSON encoding of the
transaction list. -/
theorem block_update_hash_spec (C : Crypto PK) (b : Block) :
    (Block.UpdateHash C b).Hash =
      C.md5 (b.PreviousHash ++
        be64Spec (int64ToUint64 b.Height) ++
        be64Spec (int64ToUint64 b.Nonce) ++
        be64Spec (int64ToUint64 (Int.ofNat b.RewardOutput.Destination.length)) ++
        b.RewardOutput.Destination ++
        be64Spec (int64ToUint64 b.RewardOutput.Amount) ++
        C.md5 (C.marshalTxList b.Transactions)) := by
  simp [Block.UpdateHash, writeInt64BE, be64_eq_be64Spec, List.append_assoc]

end C2

section Validation

variable {PK : Type}

/-- Two's-complement wrap-around of `int64` addition. -/
def wrap64 (n : Int) : Int := (n + 2 ^ 63) % 2 ^ 64 - 2 ^ 63

/-- `overflow.Add64` (github.com/JohnCGriffin/overflow): computes the wrapped
sum `c := a + b` and reports `ok` iff `(c > a) == (b > 0)`. -/
def Add64 (a b : Int) : Int × Bool :=
  let c := wrap64 (a + b)
  (c, decide (c > a) == decide (b > 0))

/-- `func (t Tx) ValidAmounts() error`. -/
def Tx.ValidAmounts (t : Tx) : Except GoError Unit :=
  if t.Fee < 0 then .error (.errMsg "cryptopuff: negative fee")
  else if t.Amount ≤ 0 then
    .error (.errMsg "cryptopuff: negative or zero amount")
  else if !(Add64 t.Fee t.Amount).2 then
    .error (.errMsg "cryptopuff: fee plus amount overflows")
  else .ok ()

/-- `type Version int` with constants `V1` and `V2` (`address.go`). -/
inductive Version where
  | V1
  | V2
deriving DecidableEq

/-- `func AddressFromKey(version Version, k *rsa.PublicKey) Address`: MD5 of
the PKCS#1 encoding of the key; V1 keeps the first two bytes, V2 all of it. -/
def AddressFromKey (C : Crypto PK) (version : Version) (k : PK) : Address :=
  let hash := C.md5 (C.marshalPKCS1PublicKey k)
  match version with
  | .V1 => hash.take 2
  | .V2 => hash

/-- `func (s SignedTx) ValidSignature() error`. -/
def SignedTx.ValidSignature (C : Crypto PK) (s : SignedTx) :
    Except GoError Unit :=
  match C.parsePKCS1PublicKey s.PublicKey with
  | none => .error (.errMsg "cryptopuff: failed to parse public key")
  | some k =>
    if !(AddressFromKey C .V1 k == s.ToTx.Source) &&
       !(AddressFromKey C .V2 k == s.ToTx.Source) then
      .error (.errMsg "cryptopuff: address doesn't match public key")
    else if C.verifyPSS k (C.md5 (C.marshalTx s.ToTx)) s.Signature then .ok ()
    else .error (.errMsg "cryptopuff: invalid signature")

/-- `func (s SignedTx) Valid() error` — both failure branches wrap the cause
in an `InvalidBlockError`. -/
def SignedTx.Valid (C : Crypto PK) (s : SignedTx) : Except GoError Unit :=
  match s.ToTx.ValidAmounts with
  | .error e => .error (.invalidBlock "cryptopuff: invalid amounts" (some e))
  | .ok _ =>
    match s.ValidSignature C with
    | .error e => .error (.invalidBlock "cryptopuff: invalid signature" (some e))
    | .ok _ => .ok ()

private lemma add64_ok_iff (a b : Int)
    (ha₁ : -2 ^ 63 ≤ a) (ha₂ : a < 2 ^ 63)
    (hb₁ : -2 ^ 63 ≤ b) (hb₂ : b < 2 ^ 63) :
    ((Add64 a b).2 = true) ↔ (-2 ^ 63 ≤ a + b ∧ a + b < 2 ^ 63) := by
  have h : (Add64 a b).2 = (decide (wrap64 (a + b) > a) == decide (b > 0)) :=
    rfl
  rw [h, beq_iff_eq, decide_eq_decide]
  unfold wrap64
  omega

private lemma validAmounts_ok_iff (t : Tx)
    (ha₁ : -2 ^ 63 ≤ t.Amount) (ha₂ : t.Amount < 2 ^ 63)
    (hf₁ : -2 ^ 63 ≤ t.Fee) (hf₂ : t.Fee < 2 ^ 63) :
    (Tx.ValidAmounts t = .ok ()) ↔
      (0 < t.Amount ∧ 0 ≤ t.Fee ∧ t.Fee + t.Amount < 2 ^ 63) := by
  have hadd := add64_ok_iff t.Fee t.Amount hf₁ hf₂ ha₁ ha₂
  unfold Tx.ValidAmounts
  constructor
  · intro h
    split_ifs at h with h1 h2 h3
    have := hadd.1 (by simpa using h3)
    omega
  · rintro ⟨hpos, hnn, hlt⟩
    rw [if_neg (by omega), if_neg (by omega),
      if_neg (by simp [hadd.2 ⟨by omega, hlt⟩])]

/-- If `ValidAmounts` succeeds then the amount is positive and the fee
non-negative (no range assumptions needed: these are the literal branch
conditions). -/
private lemma validAmounts_ok_pos (t : Tx) (h : Tx.ValidAmounts t = .ok ()) :
    0 < t.Amount ∧ 0 ≤ t.Fee := by
  unfold Tx.ValidAmounts at h
  split_ifs at h with h1 h2 h3
  omega

/-- Every error produced by `SignedTx.Valid` is an `InvalidBlockError`. -/
private lemma signedTx_valid_error_isInvalidBlock (C : Crypto PK)
    (s : SignedTx) (e : GoError) (h : SignedTx.Valid C s = .error e) :
    e.isInvalidBlock = true := by
  unfold SignedTx.Valid at h
  split at h
  · cases h; rfl
  · split at h
    · cases h; rfl
    · cases h

/-- If `SignedTx.Valid` succeeds then the amount is positive and the fee
non-negative. -/
private lemma signedTx_valid_ok_pos (C : Crypto PK) (s : SignedTx)
    (h : SignedTx.Valid C s = .ok ()) : 0 < s.Amount ∧ 0 ≤ s.Fee := by
  unfold SignedTx.Valid at h
  split at h
  · cases h
  · next heq => exact validAmounts_ok_pos _ heq

private lemma validSignature_ok_iff (C : Crypto PK) (s : SignedTx) :
    (SignedTx.ValidSignature C s = .ok ()) ↔
      (∃ k, C.parsePKCS1PublicKey s.PublicKey = some k ∧
        (s.Source = AddressFromKey C .V1 k ∨
         s.Source = AddressFromKey C .V2 k) ∧
        C.verifyPSS k (C.md5 (C.marshalTx s.ToTx)) s.Signature = true) := by
  unfold SignedTx.ValidSignature
  constructor
  · intro h
    split at h
    · simp at h
    next k hk =>
      split_ifs at h with hm hv
      refine ⟨k, hk, ?_, hv⟩
      simp only [Bool.and_eq_true, Bool.not_eq_true', beq_eq_false_iff_ne,
        ne_eq, not_and_or, not_not] at hm
      rcases hm with hne | hne
      · exact Or.inl hne.symm
      · exact Or.inr hne.symm
  · rintro ⟨k, hk, hsrc, hv⟩
    split
    · next hnone => rw [hk] at hnone; exact Option.noConfusion hnone
    · next k' hk' =>
      rw [hk] at hk'
      injection hk' with hkk
      subst hkk
      have hm : (!(AddressFromKey C .V1 k == s.ToTx.Source) &&
          !(AddressFromKey C .V2 k == s.ToTx.Source)) = false := by
        rcases hsrc with h | h <;>
          simp [SignedTx.Source] at h <;> simp [h]
      rw [if_neg (by simp [hm]), if_pos hv]

private lemma signedTx_valid_ok_iff_components (C : Crypto PK) (s : SignedTx) :
    (SignedTx.Valid C s = .ok ()) ↔
      (Tx.ValidAmounts s.ToTx = .ok () ∧
       SignedTx.ValidSignature C s = .ok ()) := by
  unfold SignedTx.Valid
  cases hA : s.ToTx.ValidAmounts with
  | error e => simp
  | ok u =>
    cases u
    cases hS : SignedTx.ValidSignature C s with
    | error e => simp
    | ok v => cases v; simp

/-- **C3.**  For a transaction whose fee and amount are `int64` values,
`SignedTx.Valid` succeeds iff the amount is positive, the fee non-negative,
`Fee + Amount` does not overflow signed 64-bit arithmetic, the declared
source equals the V1 or the V2 address of the attached public key, and
RSA-PSS verification of the signature over the MD5 of the canonical encoding
of the unsigned `Tx` succeeds; and every failure is an `InvalidBlockError`. -/
theorem signed_tx_valid_iff (C : Crypto PK) (s : SignedTx)
    (ha₁ : -2 ^ 63 ≤ s.Amount) (ha₂ : s.Amount < 2 ^ 63)
    (hf₁ : -2 ^ 63 ≤ s.Fee) (hf₂ : s.Fee < 2 ^ 63) :
    ((SignedTx.Valid C s = .ok ()) ↔
      (0 < s.Amount ∧ 0 ≤ s.Fee ∧ s.Fee + s.Amount < 2 ^ 63 ∧
       ∃ k, C.parsePKCS1PublicKey s.PublicKey = some k ∧
         (s.Source = AddressFromKey C .V1 k ∨
          s.Source = AddressFromKey C .V2 k) ∧
         C.verifyPSS k (C.md5 (C.marshalTx s.ToTx)) s.Signature = true)) ∧
    (∀ e, SignedTx.Valid C s = .error e → e.isInvalidBlock = true) := by
  refine ⟨?_, signedTx_valid_error_isInvalidBlock C s⟩
  rw [signedTx_valid_ok_iff_components,
    validAmounts_ok_iff s.ToTx ha₁ ha₂ hf₁ hf₂, validSignature_ok_iff]
  constructor
  · rintro ⟨⟨hpos, hnn, hlt⟩, hsig⟩
    exact ⟨hpos, hnn, hlt, hsig⟩
  · rintro ⟨hpos, hnn, hlt, hsig⟩
    exact ⟨⟨hpos, hnn, hlt⟩, hsig⟩

/-- A concrete instantiation of the external primitives, used to evaluate the
theorems on closed inputs: every signature verifies and every byte string
parses as the unique `Unit` key. -/
def trivialCrypto : Crypto Unit where
  md5 := fun _ => EmptyHash
  marshalPKCS1PublicKey := fun _ => []
  parsePKCS1PublicKey := fun _ => some ()
  verifyPSS := fun _ _ _ => true
  marshalTx := fun _ => []
  marshalSignedTx := fun s => s.ID
  marshalTxList := fun _ => []

/-- A transfer of one coin with no fee, from the V1 address of the
`trivialCrypto` key. -/
def witnessTx : Tx :=
  { TxOut := { Destination := [1], Amount := 1 }, Source := [0, 0], Fee := 0 }

/-- `witnessTx` wrapped as a signed transaction. -/
def witnessSignedTx : SignedTx :=
  { ToTx := witnessTx, ID := [], Signature := [], PublicKey := [],
    Hash := EmptyHash }

/-- Witness for the C3 theorem, at `witnessSignedTx` under `trivialCrypto`. -/
theorem signed_tx_valid_iff_witness :
    ((SignedTx.Valid trivialCrypto witnessSignedTx = .ok ()) ↔
      (0 < witnessSignedTx.Amount ∧ 0 ≤ witnessSignedTx.Fee ∧
       witnessSignedTx.Fee + witnessSignedTx.Amount < 2 ^ 63 ∧
       ∃ k, trivialCrypto.parsePKCS1PublicKey witnessSignedTx.PublicKey =
           some k ∧
         (witnessSignedTx.Source = AddressFromKey trivialCrypto .V1 k ∨
          witnessSignedTx.Source = AddressFromKey trivialCrypto .V2 k) ∧
         trivialCrypto.verifyPSS k
           (trivialCrypto.md5 (trivialCrypto.marshalTx witnessSignedTx.ToTx))
           witnessSignedTx.Signature = true)) ∧
    (∀ e, SignedTx.Valid trivialCrypto witnessSignedTx = .error e →
      e.isInvalidBlock = true) :=
  signed_tx_valid_iff trivialCrypto witnessSignedTx
    (by norm_num [witnessSignedTx, witnessTx, SignedTx.Amount, Tx.Amount])
    (by norm_num [witnessSignedTx, witnessTx, SignedTx.Amount, Tx.Amount])
    (by norm_num [witnessSignedTx, witnessTx, SignedTx.Fee])
    (by norm_num [witnessSignedTx, witnessTx, SignedTx.Fee])

section C4

variable {PK : Type}

/-- `MaxBlockReward = 1000` (`block.go`). -/
def MaxBlockReward : Int := 1000

/-- `MaxTransactionsPerBlock = 100` (`block.go`). -/
def MaxTransactionsPerBlock : Nat := 100

/-- The `for _, t := range b.Transactions` loop of `Block.Valid`: the first
failing transaction's error is returned unchanged. -/
def Block.validTxs (C : Crypto PK) : List SignedTx → Except GoError Unit
  | [] => .ok ()
  | t :: ts =>
    match SignedTx.Valid C t with
    | .error e => .error e
    | .ok _ => Block.validTxs C ts

/-- `func (b *Block) Valid(previous *Block) error`. -/
def Block.Valid (C : Crypto PK) (b previous : Block) : Except GoError Unit :=
  if b.PreviousHash ≠ previous.Hash then
    .error (.invalidBlock "cryptopuff: previous hash mismatch" none)
  else if b.Height ≠ previous.Height + 1 then
    .error (.invalidBlock "cryptopuff: height mismatch" none)
  else if !(Hash.Valid b.Hash) then
    .error (.invalidBlock
      "cryptopuff: hash doesn't meet difficulty requirement" none)
  else if b.RewardOutput.Amount < 0 ∨ b.RewardOutput.Amount > MaxBlockReward then
    .error (.invalidBlock
      "cryptopuff: reward amount negative or greater than maximum" none)
  else if b.Transactions.length > MaxTransactionsPerBlock then
    .error (.invalidBlock
      "cryptopuff: number of transactions greater than maximum" none)
  else Block.validTxs C b.Transactions

private lemma validTxs_ok_iff (C : Crypto PK) (ts : List SignedTx) :
    (Block.validTxs C ts = .ok ()) ↔
      (∀ t ∈ ts, SignedTx.Valid C t = .ok ()) := by
  induction ts with
  | nil => simp [Block.validTxs]
  | cons t ts ih =>
    unfold Block.validTxs
    cases hv : SignedTx.Valid C t with
    | error e => simp [hv]
    | ok u => cases u; simp [hv, ih]

private lemma validTxs_error_isInvalidBlock (C : Crypto PK)
    (ts : List SignedTx) (e : GoError)
    (h : Block.validTxs C ts = .error e) : e.isInvalidBlock = true := by
  induction ts with
  | nil => exact Except.noConfusion h
  | cons t ts ih =>
    unfold Block.validTxs at h
    cases hv : SignedTx.Valid C t with
    | error e' =>
      rw [hv] at h
      injection h with he
      subst he
      exact signedTx_valid_error_isInvalidBlock C t _ hv
    | ok u =>
      cases u
      rw [hv] at h
      exact ih h

/-- **C4.**  `Block.Valid` succeeds iff `PreviousHash` matches the parent's
hash, `Height` is the parent's height plus one, the block hash is PoW-valid,
the reward amount lies in `[0, 1000]`, there are at most 100 transactions,
and every transaction independently passes `SignedTx.Valid`; and every
failure is an `InvalidBlockError`. -/
theorem block_valid_iff (C : Crypto PK) (b previous : Block) :
    ((Block.Valid C b previous = .ok ()) ↔
      (b.PreviousHash = previous.Hash ∧ b.Height = previous.Height + 1 ∧
       Hash.Valid b.Hash = true ∧ 0 ≤ b.RewardOutput.Amount ∧
       b.RewardOutput.Amount ≤ 1000 ∧ b.Transactions.length ≤ 100 ∧
       ∀ t ∈ b.Transactions, SignedTx.Valid C t = .ok ())) ∧
    (∀ e, Block.Valid C b previous = .error e → e.isInvalidBlock = true) := by
  constructor
  · unfold Block.Valid
    constructor
    · intro h
      split_ifs at h with h1 h2 h3 h4 h5
      rw [Bool.not_eq_true', Bool.not_eq_false] at h3
      push_neg at h4
      simp only [MaxBlockReward] at h4
      simp only [MaxTransactionsPerBlock, not_lt] at h5
      exact ⟨not_ne_iff.1 h1, not_ne_iff.1 h2, h3, h4.1, h4.2, h5,
        (validTxs_ok_iff C b.Transactions).1 h⟩
    · rintro ⟨e1, e2, e3, e4, e5, e6, e7⟩
      rw [if_neg (not_ne_iff.2 e1), if_neg (not_ne_iff.2 e2),
        if_neg (by simp [e3]),
        if_neg (by simp only [MaxBlockReward]; omega),
        if_neg (by simp only [MaxTransactionsPerBlock]; omega)]
      exact (validTxs_ok_iff C b.Transactions).2 e7
  · intro e h
    unfold Block.Valid at h
    split_ifs at h with h1 h2 h3 h4 h5
    · injection h with he; subst he; rfl
    · injection h with he; subst he; rfl
    · injection h with he; subst he; rfl
    · injection h with he; subst he; rfl
    · injection h with he; subst he; rfl
    · exact validTxs_error_isInvalidBlock C b.Transactions e h

end C4

end Validation

section ChainStore

variable {PK : Type}

/-- The SQLite tables of `db.go`, as association lists of rows.  `blocks`
stores the decoded block next to its `hash` primary-key column; `balances`
has primary key `(block_hash, address)`; `included_txs` and `block_txs` have
primary key `(block_hash, tx_hash)`; `txs` is keyed by the transaction hash;
`peers` by the peer string. -/
structure Store where
  blocks : List (Hash × Block)
  balances : List (Hash × Address × Int)
  includedTxs : List (Hash × Hash)
  blockTxs : List (Hash × Hash)
  txs : List (Hash × SignedTx)
  peers : List String
deriving DecidableEq

/-- `SELECT block FROM blocks WHERE hash = ?`. -/
def Store.blockByHash (st : Store) (h : Hash) : Option Block :=
  (st.blocks.find? (fun r => r.1 == h)).map Prod.snd

/-- `SELECT 1 FROM blocks WHERE hash = ?`, as a Boolean. -/
def Store.blockExists (st : Store) (h : Hash) : Bool :=
  (st.blocks.find? (fun r => r.1 == h)).isSome

/-- `SELECT balance FROM balances WHERE block_hash = ? AND address = ?`. -/
def Store.balanceAt (st : Store) (h : Hash) (a : Address) : Option Int :=
  (st.balances.find? (fun r => r.1 == h && r.2.1 == a)).map (fun r => r.2.2)

/-- `UPDATE balances SET balance = balance - ? WHERE block_hash = ? AND
address = ?` — a no-op when no row matches, exactly like the SQL UPDATE. -/
def Store.subBalance (st : Store) (h : Hash) (a : Address) (x : Int) : Store :=
  { st with balances := st.balances.map (fun r =>
      if r.1 == h && r.2.1 == a then (r.1, r.2.1, r.2.2 - x) else r) }

/-- `INSERT INTO balances ... ON CONFLICT (block_hash, address) DO UPDATE SET
balance = balance + excluded.balance`. -/
def Store.upsertBalance (st : Store) (h : Hash) (a : Address) (x : Int) :
    Store :=
  if st.balances.any (fun r => r.1 == h && r.2.1 == a) then
    { st with balances := st.balances.map (fun r =>
        if r.1 == h && r.2.1 == a then (r.1, r.2.1, r.2.2 + x) else r) }
  else { st with balances := st.balances ++ [(h, a, x)] }

/-- `INSERT INTO balances (block_hash, address, balance) SELECT dst, address,
balance FROM balances WHERE block_hash = src`.  A primary-key conflict would
need an existing `balances` row keyed by `dst`, which the enforced foreign
key to `blocks` rules out when `dst` is a freshly inserted block hash — the
only situation in which `addBlock` runs this statement. -/
def Store.copyBalances (st : Store) (dst src : Hash) : Store :=
  { st with balances := st.balances ++ st.balances.filterMap (fun r =>
      if r.1 == src then some (dst, r.2.1, r.2.2) else none) }

/-- `INSERT INTO included_txs (block_hash, tx_hash) SELECT dst, tx_hash FROM
included_txs WHERE block_hash = src` (same conflict-freedom argument as
`copyBalances`). -/
def Store.copyIncludedTxs (st : Store) (dst src : Hash) : Store :=
  { st with includedTxs := st.includedTxs ++ st.includedTxs.filterMap (fun r =>
      if r.1 == src then some (dst, r.2) else none) }

/-- `SELECT 1 FROM included_txs WHERE block_hash = ? AND tx_hash = ?`. -/
def Store.includedContains (st : Store) (bh th : Hash) : Bool :=
  st.includedTxs.any (fun r => r.1 == bh && r.2 == th)

/-- Row lookup in `block_txs`. -/
def Store.blockTxsContains (st : Store) (bh th : Hash) : Bool :=
  st.blockTxs.any (fun r => r.1 == bh && r.2 == th)

/-- `INSERT INTO included_txs (block_hash, tx_hash) VALUES (?, ?)` — a plain
insert; a duplicate primary key surfaces as the SQLite constraint error
(code 19, extended code 1555), which `addBlock` does not catch. -/
def Store.insertIncludedTx (st : Store) (bh th : Hash) : Except GoError Store :=
  if st.includedContains bh th then .error (.sqlite3Error 19 1555)
  else .ok { st with includedTxs := st.includedTxs ++ [(bh, th)] }

/-- `INSERT INTO block_txs (block_hash, tx_hash) VALUES (?, ?)`. -/
def Store.insertBlockTx (st : Store) (bh th : Hash) : Except GoError Store :=
  if st.blockTxsContains bh th then .error (.sqlite3Error 19 1555)
  else .ok { st with blockTxs := st.blockTxs ++ [(bh, th)] }

/-- `func addTx(tx *sql.Tx, stx *SignedTx) error` — `INSERT OR IGNORE INTO
txs`, idempotent on the transaction hash. -/
def Store.addTx (st : Store) (stx : SignedTx) : Store :=
  if st.txs.any (fun r => r.1 == stx.Hash) then st
  else { st with txs := st.txs ++ [(stx.Hash, stx)] }

/-- `func validTx(tx *sql.Tx, stx *SignedTx, tip Hash) error`: intrinsic
validity, then the balance check (a missing row reads as 0), then the
replay check against the inclusion set at `tip`. -/
def validTx (C : Crypto PK) (st : Store) (stx : SignedTx) (tip : Hash) :
    Except GoError Unit :=
  match SignedTx.Valid C stx with
  | .error e => .error e
  | .ok _ =>
    if (st.balanceAt tip stx.Source).getD 0 < stx.RequiredBalance then
      .error (.invalidBlock "cryptopuff: insufficient balance" none)
    else if st.includedContains tip stx.Hash then
      .error (.invalidBlock
        "cryptopuff: transaction already included in blockchain" none)
    else .ok ()

/-- The three write statements of one iteration of the `addBlock`
transaction loop: `UPDATE balances SET balance = balance - RequiredBalance`
for the source, the destination upsert, and `addTx`. -/
def applyTxStatements (bHash : Hash) (stx : SignedTx) (st : Store) : Store :=
  ((st.subBalance bHash stx.Source stx.RequiredBalance).upsertBalance
    bHash stx.Destination stx.Amount).addTx stx

/-- The `for _, stx := range block.Transactions` loop of `addBlock`,
threading the accumulated `fee` (seeded with the reward amount; the `fee +=
stx.Fee` increment of the source is performed at the head of the iteration
but only read afterwards) and the store through the per-transaction
statements, in source order. -/
def addBlockTxs (C : Crypto PK) (bHash : Hash) :
    List SignedTx → Int → Store → Except GoError (Int × Store)
  | [], fee, st => .ok (fee, st)
  | stx :: rest, fee, st =>
    match validTx C st stx bHash with
    | .error e => .error e
    | .ok _ =>
      match (applyTxStatements bHash stx st).insertIncludedTx bHash stx.Hash
      with
      | .error e => .error e
      | .ok st' =>
        match st'.insertBlockTx bHash stx.Hash with
        | .error e => .error e
        | .ok st'' => addBlockTxs C bHash rest (fee + stx.Fee) st''

/-- `func addBlock(tx *sql.Tx, block *Block) error`: resolve the parent
(`ErrUnknownParent` when absent); insert the block row, treating a
primary-key conflict as immediate success (idempotence); copy the parent's
balances and inclusion set under the new hash; validate; run the
per-transaction loop; credit the reward plus fees when positive; delete
zero balances. -/
def addBlock (C : Crypto PK) (st : Store) (block : Block) :
    Except GoError Store :=
  match st.blockByHash block.PreviousHash with
  | none => .error .unknownParent
  | some previous =>
    if st.blockExists block.Hash then .ok st
    else
      let st1 : Store := { st with blocks := st.blocks ++ [(block.Hash, block)] }
      let st2 := st1.copyBalances block.Hash block.PreviousHash
      let st3 := st2.copyIncludedTxs block.Hash block.PreviousHash
      match Block.Valid C block previous with
      | .error e => .error e
      | .ok _ =>
        match addBlockTxs C block.Hash block.Transactions
            block.RewardOutput.Amount st3 with
        | .error e => .error e
        | .ok (fee, st4) =>
          let st5 := if fee > 0 then
              st4.upsertBalance block.Hash block.RewardOutput.Destination fee
            else st4
          .ok { st5 with balances := st5.balances.filter (fun r => r.2.2 != 0) }

/-- `func (d *DB) AddBlock(block *Block) error`: `addBlock` inside
`TransactWithRetry`.  On error the transaction rolls back, leaving the store
untouched; none of the errors `addBlock` can produce is classified as a
deadlock by the SQLite predicate (busy/locked/protocol), so exactly one
attempt runs. -/
def DB.AddBlock (C : Crypto PK) (st : Store) (block : Block) :
    Option GoError × Store :=
  match addBlock C st block with
  | .ok st' => (none, st')
  | .error e => (some e, st)

/-- **C6.**  `AddBlock` is idempotent on identical inputs: when the block's
row is already stored and its parent resolves, `AddBlock` reports success
and returns the store unchanged — the conflicting insert is caught before
any statement that writes. -/
theorem add_block_idempotent (C : Crypto PK) (st : Store) (b : Block)
    (hrow : st.blockExists b.Hash = true)
    (hpar : (st.blockByHash b.PreviousHash).isSome = true) :
    DB.AddBlock C st b = (none, st) := by
  unfold DB.AddBlock addBlock
  cases hp : st.blockByHash b.PreviousHash with
  | none => rw [hp] at hpar; simp at hpar
  | some prev => simp [hrow]

/-- The stored hash of the witness parent block. -/
def hashA : Hash := List.replicate 16 1

/-- The stored hash of the witness child block. -/
def hashB : Hash := List.replicate 16 2

/-- Witness parent block. -/
def parentBlockW : Block :=
  { PreviousHash := EmptyHash, Height := 0, Nonce := 39611433,
    RewardOutput := { Destination := [], Amount := 0 }, Transactions := [],
    Hash := hashA }

/-- Witness child block, a child of `parentBlockW`. -/
def childBlockW : Block :=
  { PreviousHash := hashA, Height := 1, Nonce := 7,
    RewardOutput := { Destination := [], Amount := 0 }, Transactions := [],
    Hash := hashB }

/-- A store that already holds both witness blocks. -/
def storeW : Store :=
  { blocks := [(hashA, parentBlockW), (hashB, childBlockW)], balances := [],
    includedTxs := [], blockTxs := [], txs := [], peers := [] }

/-- Witness for C6: re-adding the already-stored `childBlockW` succeeds and
leaves the store unchanged. -/
theorem add_block_idempotent_witness :
    DB.AddBlock trivialCrypto storeW childBlockW = (none, storeW) :=
  add_block_idempotent trivialCrypto storeW childBlockW (by decide) (by decide)

/-- The `for i, block := range blocks` scan of `DB.AddBlocks`: the index of
the first block of the peer chain whose row exists locally (`divergedAt`;
`none` plays the role of Go's `-1`). -/
def findDivergedAt (st : Store) : List Block → Option Nat
  | [] => none
  | b :: rest =>
    if st.blockExists b.Hash then some 0
    else (findDivergedAt st rest).map (· + 1)

/-- The `for i := divergedAt - 1; i >= 0; i--` loop of `DB.AddBlocks`:
`addBlocksFrom C blocks d st` applies `addBlock` to the blocks at indices
`d-1, d-2, …, 0`, stopping at the first error. -/
def addBlocksFrom (C : Crypto PK) (blocks : List Block) :
    Nat → Store → Except GoError Store
  | 0, st => .ok st
  | i + 1, st =>
    match blocks[i]? with
    | none => .ok st
    | some b =>
      match addBlock C st b with
      | .error e => .error e
      | .ok st' => addBlocksFrom C blocks i st'

/-- `func (d *DB) AddBlocks(blocks []Block) error`: scan for the fork point;
if there is none, or it is the peer's tip itself (`divergedAt <= 0`), do
nothing; otherwise run the descending loop — all inside one transaction, so
an error rolls the whole batch back. -/
def DB.AddBlocks (C : Crypto PK) (st : Store) (blocks : List Block) :
    Option GoError × Store :=
  match findDivergedAt st blocks with
  | none => (none, st)
  | some 0 => (none, st)
  | some d =>
    match addBlocksFrom C blocks d st with
    | .ok st' => (none, st')
    | .error e => (some e, st)

private lemma findDivergedAt_none_of_unknown (st : Store) (blocks : List Block)
    (h : ∀ b ∈ blocks, st.blockExists b.Hash = false) :
    findDivergedAt st blocks = none := by
  induction blocks with
  | nil => rfl
  | cons b rest ih =>
    unfold findDivergedAt
    rw [if_neg (by simp [h b (by simp)]),
      ih (fun x hx => h x (by simp [hx]))]
    rfl

private lemma findDivergedAt_lt_length (st : Store) (blocks : List Block)
    (d : Nat) (h : findDivergedAt st blocks = some d) : d < blocks.length := by
  induction blocks generalizing d with
  | nil => exact Option.noConfusion h
  | cons b rest ih =>
    unfold findDivergedAt at h
    split_ifs at h with hb
    · injection h with hd
      subst hd
      simp
    · rcases Option.map_eq_some'.1 h with ⟨d', hd', rfl⟩
      have := ih d' hd'
      simp only [List.length_cons]
      omega

private lemma addBlocksFrom_succ (C : Crypto PK) (blocks : List Block)
    (i : Nat) (st : Store) (b : Block) (hget : blocks[i]? = some b) :
    addBlocksFrom C blocks (i + 1) st =
      match addBlock C st b with
      | .error e => .error e
      | .ok st' => addBlocksFrom C blocks i st' := by
  conv_lhs => unfold addBlocksFrom
  rw [hget]

private lemma addBlocksFrom_eq_foldlM (C : Crypto PK) (blocks : List Block)
    (d : Nat) (hd : d ≤ blocks.length) (st : Store) :
    addBlocksFrom C blocks d st =
      ((blocks.take d).reverse).foldlM (fun s b => addBlock C s b) st := by
  induction d generalizing st with
  | zero =>
    simp only [addBlocksFrom, List.take_zero, List.reverse_nil,
      List.foldlM_nil]
    rfl
  | succ i ih =>
    have hlt : i < blocks.length := by omega
    have hget : blocks[i]? = some blocks[i] := List.getElem?_eq_getElem hlt
    have htake : (blocks.take (i + 1)).reverse =
        blocks[i] :: (blocks.take i).reverse := by
      rw [List.take_succ, hget]
      simp
    rw [addBlocksFrom_succ C blocks i st blocks[i] hget, htake,
      List.foldlM_cons]
    cases hab : addBlock C st blocks[i] with
    | error e => rfl
    | ok st' => exact ih (by omega) st'

/-- **C5.**  `AddBlocks` on a tip-first peer chain: if no block of the chain
is stored locally, or the first stored one is the peer's tip itself
(index 0), the store is returned unchanged with success; otherwise the
result is exactly that of applying `addBlock` to the blocks at indices
`forkpoint-1` down to `0` in descending order (one transaction: an error
rolls everything back). -/
theorem add_blocks_forkpoint (C : Crypto PK) (st : Store)
    (blocks : List Block) :
    ((∀ b ∈ blocks, st.blockExists b.Hash = false) →
      DB.AddBlocks C st blocks = (none, st)) ∧
    (∀ b0, blocks.head? = some b0 → st.blockExists b0.Hash = true →
      DB.AddBlocks C st blocks = (none, st)) ∧
    (∀ d, findDivergedAt st blocks = some d → 0 < d →
      DB.AddBlocks C st blocks =
        match ((blocks.take d).reverse).foldlM (fun s b => addBlock C s b) st
        with
        | .ok st' => (none, st')
        | .error e => (some e, st)) := by
  refine ⟨?_, ?_, ?_⟩
  · intro h
    unfold DB.AddBlocks
    rw [findDivergedAt_none_of_unknown st blocks h]
  · intro b0 hh hex
    cases blocks with
    | nil => exact Option.noConfusion hh
    | cons b rest =>
      injection hh with hb
      subst hb
      unfold DB.AddBlocks findDivergedAt
      rw [if_pos hex]
  · intro d h hd
    match d, hd, h with
    | d' + 1, _, h =>
      have hred : DB.AddBlocks C st blocks =
          match addBlocksFrom C blocks (d' + 1) st with
          | .ok st' => (none, st')
          | .error e => (some e, st) := by
        unfold DB.AddBlocks
        rw [h]
        rfl
      rw [hred, addBlocksFrom_eq_foldlM C blocks (d' + 1)
        (le_of_lt (findDivergedAt_lt_length st blocks _ h)) st]

/-- A store that holds only the witness parent block. -/
def storeP : Store :=
  { blocks := [(hashA, parentBlockW)], balances := [], includedTxs := [],
    blockTxs := [], txs := [], peers := [] }

/-- Witness for C5, at the tip-first chain `[childBlockW, parentBlockW]`
whose fork point is index 1: the result is that of the descending
`addBlock` run over index 0. -/
theorem add_blocks_forkpoint_witness :
    DB.AddBlocks trivialCrypto storeP [childBlockW, parentBlockW] =
      match (([childBlockW, parentBlockW].take 1).reverse).foldlM
          (fun s b => addBlock trivialCrypto s b) storeP with
      | .ok st' => (none, st')
      | .error e => (some e, storeP) :=
  (add_blocks_forkpoint trivialCrypto storeP [childBlockW, parentBlockW]).2.2
    1 (by decide) (by decide)


section C10

private lemma includedTxs_subBalance (st : Store) (h : Hash) (a : Address)
    (x : Int) : (st.subBalance h a x).includedTxs = st.includedTxs := rfl

private lemma includedTxs_upsertBalance (st : Store) (h : Hash) (a : Address)
    (x : Int) : (st.upsertBalance h a x).includedTxs = st.includedTxs := by
  unfold Store.upsertBalance
  split <;> rfl

private lemma includedTxs_addTx (st : Store) (stx : SignedTx) :
    (st.addTx stx).includedTxs = st.includedTxs := by
  unfold Store.addTx
  split <;> rfl

private lemma blockTxs_subBalance (st : Store) (h : Hash) (a : Address)
    (x : Int) : (st.subBalance h a x).blockTxs = st.blockTxs := rfl

private lemma blockTxs_upsertBalance (st : Store) (h : Hash) (a : Address)
    (x : Int) : (st.upsertBalance h a x).blockTxs = st.blockTxs := by
  unfold Store.upsertBalance
  split <;> rfl

private lemma blockTxs_addTx (st : Store) (stx : SignedTx) :
    (st.addTx stx).blockTxs = st.blockTxs := by
  unfold Store.addTx
  split <;> rfl

private lemma includedContains_applyTxStatements (bHash : Hash)
    (stx : SignedTx) (st : Store) (bh th : Hash) :
    (applyTxStatements bHash stx st).includedContains bh th =
      st.includedContains bh th := by
  unfold Store.includedContains applyTxStatements
  rw [includedTxs_addTx, includedTxs_upsertBalance, includedTxs_subBalance]

private lemma blockTxsContains_applyTxStatements (bHash : Hash)
    (stx : SignedTx) (st : Store) (bh th : Hash) :
    (applyTxStatements bHash stx st).blockTxsContains bh th =
      st.blockTxsContains bh th := by
  unfold Store.blockTxsContains applyTxStatements
  rw [blockTxs_addTx, blockTxs_upsertBalance, blockTxs_subBalance]

/-- The net effect of one successful iteration of the `addBlock` transaction
loop on the store: the three write statements, then the append to
`included_txs`, then the append to `block_txs`. -/
def stepStore (bHash : Hash) (t : SignedTx) (st : Store) : Store :=
  let st1 := applyTxStatements bHash t st
  let st2 : Store := { st1 with includedTxs := st1.includedTxs ++ [(bHash, t.Hash)] }
  { st2 with blockTxs := st2.blockTxs ++ [(bHash, t.Hash)] }

private lemma stepStore_includedTxs (bHash : Hash) (t : SignedTx) (st : Store) :
    (stepStore bHash t st).includedTxs = st.includedTxs ++ [(bHash, t.Hash)] := by
  show (applyTxStatements bHash t st).includedTxs ++ [(bHash, t.Hash)] = _
  unfold applyTxStatements
  rw [includedTxs_addTx, includedTxs_upsertBalance, includedTxs_subBalance]

private lemma stepStore_blockTxs (bHash : Hash) (t : SignedTx) (st : Store) :
    (stepStore bHash t st).blockTxs = st.blockTxs ++ [(bHash, t.Hash)] := by
  show (applyTxStatements bHash t st).blockTxs ++ [(bHash, t.Hash)] = _
  unfold applyTxStatements
  rw [blockTxs_addTx, blockTxs_upsertBalance, blockTxs_subBalance]

private lemma stepStore_includedContains (bHash : Hash) (t : SignedTx)
    (st : Store) (bh th : Hash) :
    (stepStore bHash t st).includedContains bh th =
      (st.includedContains bh th || (bHash == bh && t.Hash == th)) := by
  unfold Store.includedContains
  rw [stepStore_includedTxs]
  simp [List.any_append]

private lemma stepStore_blockTxsContains (bHash : Hash) (t : SignedTx)
    (st : Store) (bh th : Hash) :
    (stepStore bHash t st).blockTxsContains bh th =
      (st.blockTxsContains bh th || (bHash == bh && t.Hash == th)) := by
  unfold Store.blockTxsContains
  rw [stepStore_blockTxs]
  simp [List.any_append]

private lemma validTx_error_isInvalidBlock (C : Crypto PK) (st : Store)
    (stx : SignedTx) (tip : Hash) (e : GoError)
    (h : validTx C st stx tip = .error e) : e.isInvalidBlock = true := by
  unfold validTx at h
  split at h
  · next e' hv =>
    injection h with he
    subst he
    exact signedTx_valid_error_isInvalidBlock C stx _ hv
  · split_ifs at h <;> injection h with he <;> subst he <;> rfl

private lemma validTx_ok_not_included (C : Crypto PK) (st : Store)
    (stx : SignedTx) (tip : Hash) (h : validTx C st stx tip = .ok ()) :
    st.includedContains tip stx.Hash = false := by
  unfold validTx at h
  split at h
  · exact Except.noConfusion h
  · split_ifs at h with h1 h2
    simpa using h2

private lemma addBlockTxs_cons_err (C : Crypto PK) (bHash : Hash)
    (t : SignedTx) (rest : List SignedTx) (fee : Int) (st : Store)
    (e : GoError) (hvt : validTx C st t bHash = .error e) :
    addBlockTxs C bHash (t :: rest) fee st = .error e := by
  conv_lhs => unfold addBlockTxs
  rw [hvt]

private lemma addBlockTxs_cons_ok (C : Crypto PK) (bHash : Hash)
    (t : SignedTx) (rest : List SignedTx) (fee : Int) (st : Store)
    (hvt : validTx C st t bHash = .ok ())
    (hInc : st.includedContains bHash t.Hash = false)
    (hBlk : st.blockTxsContains bHash t.Hash = false) :
    addBlockTxs C bHash (t :: rest) fee st =
      addBlockTxs C bHash rest (fee + t.Fee) (stepStore bHash t st) := by
  have e1 : (applyTxStatements bHash t st).insertIncludedTx bHash t.Hash =
      .ok { applyTxStatements bHash t st with
        includedTxs :=
          (applyTxStatements bHash t st).includedTxs ++ [(bHash, t.Hash)] } := by
    unfold Store.insertIncludedTx
    rw [includedContains_applyTxStatements, hInc]
    simp
  have e2 : Store.insertBlockTx
      { applyTxStatements bHash t st with
        includedTxs :=
          (applyTxStatements bHash t st).includedTxs ++ [(bHash, t.Hash)] }
      bHash t.Hash =
      .ok { { applyTxStatements bHash t st with
          includedTxs :=
            (applyTxStatements bHash t st).includedTxs ++ [(bHash, t.Hash)] }
        with
        blockTxs :=
          (applyTxStatements bHash t st).blockTxs ++ [(bHash, t.Hash)] } := by
    unfold Store.insertBlockTx
    have hb : Store.blockTxsContains
        { applyTxStatements bHash t st with
          includedTxs :=
            (applyTxStatements bHash t st).includedTxs ++ [(bHash, t.Hash)] }
        bHash t.Hash = false := by
      show (applyTxStatements bHash t st).blockTxsContains bHash t.Hash = false
      rw [blockTxsContains_applyTxStatements]
      exact hBlk
    rw [hb]
    simp
  have step1 : addBlockTxs C bHash (t :: rest) fee st =
      match (applyTxStatements bHash t st).insertIncludedTx bHash t.Hash with
      | .error e => .error e
      | .ok st' =>
        match st'.insertBlockTx bHash t.Hash with
        | .error e => .error e
        | .ok st'' => addBlockTxs C bHash rest (fee + t.Fee) st'' := by
    conv_lhs => unfold addBlockTxs
    rw [hvt]
  rw [step1, e1]
  show (match Store.insertBlockTx
      { applyTxStatements bHash t st with
        includedTxs :=
          (applyTxStatements bHash t st).includedTxs ++ [(bHash, t.Hash)] }
      bHash t.Hash with
    | .error e => Except.error e
    | .ok st'' => addBlockTxs C bHash rest (fee + t.Fee) st'') =
      addBlockTxs C bHash rest (fee + t.Fee) (stepStore bHash t st)
  rw [e2]
  rfl

private lemma stepStore_inv (bHash : Hash) (u : SignedTx) (st : Store)
    (hinv : ∀ th, st.blockTxsContains bHash th = true →
      st.includedContains bHash th = true) :
    ∀ th, (stepStore bHash u st).blockTxsContains bHash th = true →
      (stepStore bHash u st).includedContains bHash th = true := by
  intro th hth
  rw [stepStore_blockTxsContains] at hth
  rw [stepStore_includedContains]
  rcases Bool.or_eq_true_iff.1 hth with hold | hnew
  · rw [hinv th hold]
    rfl
  · rw [hnew]
    simp

private lemma addBlockTxs_error_isInvalidBlock (C : Crypto PK) (bHash : Hash) :
    ∀ (txs : List SignedTx) (fee : Int) (st : Store),
    (∀ th, st.blockTxsContains bHash th = true →
      st.includedContains bHash th = true) →
    ∀ e, addBlockTxs C bHash txs fee st = .error e →
      e.isInvalidBlock = true := by
  intro txs
  induction txs with
  | nil =>
    intro fee st _ e h
    exact Except.noConfusion h
  | cons t rest ih =>
    intro fee st hinv e h
    cases hvt : validTx C st t bHash with
    | error e' =>
      rw [addBlockTxs_cons_err C bHash t rest fee st e' hvt] at h
      injection h with he
      subst he
      exact validTx_error_isInvalidBlock C st t bHash _ hvt
    | ok u =>
      cases u
      have hInc := validTx_ok_not_included C st t bHash hvt
      have hBlk : st.blockTxsContains bHash t.Hash = false := by
        cases hb : st.blockTxsContains bHash t.Hash with
        | false => rfl
        | true => rw [hinv t.Hash hb] at hInc; exact Bool.noConfusion hInc
      rw [addBlockTxs_cons_ok C bHash t rest fee st hvt hInc hBlk] at h
      exact ih (fee + t.Fee) (stepStore bHash t st)
        (stepStore_inv bHash t st hinv) e h

private lemma addBlockTxs_poisoned (C : Crypto PK) (bHash : Hash) :
    ∀ (txs : List SignedTx) (fee : Int) (st : Store) (h : Hash),
    (∀ th, st.blockTxsContains bHash th = true →
      st.includedContains bHash th = true) →
    st.includedContains bHash h = true →
    (∃ t ∈ txs, t.Hash = h) →
    ∃ e, addBlockTxs C bHash txs fee st = .error e := by
  intro txs
  induction txs with
  | nil =>
    rintro fee st h _ _ ⟨t, ht, _⟩
    exact absurd ht (List.not_mem_nil t)
  | cons u rest ih =>
    rintro fee st h hinv hpoison ⟨t, ht, hth⟩
    cases hvt : validTx C st u bHash with
    | error e =>
      exact ⟨e, addBlockTxs_cons_err C bHash u rest fee st e hvt⟩
    | ok v =>
      cases v
      have hInc := validTx_ok_not_included C st u bHash hvt
      have hBlk : st.blockTxsContains bHash u.Hash = false := by
        cases hb : st.blockTxsContains bHash u.Hash with
        | false => rfl
        | true => rw [hinv u.Hash hb] at hInc; exact Bool.noConfusion hInc
      have hne : t ≠ u := by
        rintro rfl
        rw [hth] at hInc
        rw [hpoison] at hInc
        exact Bool.noConfusion hInc
      have htrest : t ∈ rest := by
        rcases List.mem_cons.1 ht with h' | h'
        · exact absurd h' hne
        · exact h'
      rw [addBlockTxs_cons_ok C bHash u rest fee st hvt hInc hBlk]
      refine ih (fee + u.Fee) (stepStore bHash u st) h
        (stepStore_inv bHash u st hinv) ?_ ⟨t, htrest, hth⟩
      rw [stepStore_includedContains, hpoison]
      rfl

private lemma addBlockTxs_dup_error (C : Crypto PK) (bHash : Hash) :
    ∀ (txs : List SignedTx) (fee : Int) (st : Store),
    (∀ th, st.blockTxsContains bHash th = true →
      st.includedContains bHash th = true) →
    (∃ (i j : Nat) (t1 t2 : SignedTx), i < j ∧ txs[i]? = some t1 ∧
      txs[j]? = some t2 ∧ t1.Hash = t2.Hash) →
    ∃ e, addBlockTxs C bHash txs fee st = .error e := by
  intro txs
  induction txs with
  | nil =>
    rintro fee st _ ⟨i, j, t1, t2, hij, h1, h2, hh⟩
    rw [List.getElem?_nil] at h1
    exact Option.noConfusion h1
  | cons u rest ih =>
    rintro fee st hinv ⟨i, j, t1, t2, hij, h1, h2, hh⟩
    cases hvt : validTx C st u bHash with
    | error e =>
      exact ⟨e, addBlockTxs_cons_err C bHash u rest fee st e hvt⟩
    | ok v =>
      cases v
      have hInc := validTx_ok_not_included C st u bHash hvt
      have hBlk : st.blockTxsContains bHash u.Hash = false := by
        cases hb : st.blockTxsContains bHash u.Hash with
        | false => rfl
        | true => rw [hinv u.Hash hb] at hInc; exact Bool.noConfusion hInc
      rw [addBlockTxs_cons_ok C bHash u rest fee st hvt hInc hBlk]
      cases i with
      | zero =>
        rw [List.getElem?_cons_zero] at h1
        injection h1 with h1'
        cases j with
        | zero => omega
        | succ j' =>
          rw [List.getElem?_cons_succ] at h2
          have ht2 : t2 ∈ rest := List.getElem?_mem h2
          refine addBlockTxs_poisoned C bHash rest (fee + u.Fee)
            (stepStore bHash u st) t2.Hash (stepStore_inv bHash u st hinv)
            ?_ ⟨t2, ht2, rfl⟩
          rw [stepStore_includedContains]
          have huh : u.Hash = t2.Hash := by rw [h1', hh]
          simp [huh]
      | succ i' =>
        cases j with
        | zero => omega
        | succ j' =>
          rw [List.getElem?_cons_succ] at h1 h2
          exact ih (fee + u.Fee) (stepStore bHash u st)
            (stepStore_inv bHash u st hinv)
            ⟨i', j', t1, t2, by omega, h1, h2, hh⟩

private lemma blockValid_error_isInvalidBlock (C : Crypto PK)
    (b previous : Block) (e : GoError)
    (h : Block.Valid C b previous = .error e) : e.isInvalidBlock = true := by
  unfold Block.Valid at h
  split_ifs at h
  · injection h with he; subst he; rfl
  · injection h with he; subst he; rfl
  · injection h with he; subst he; rfl
  · injection h with he; subst he; rfl
  · injection h with he; subst he; rfl
  · exact validTxs_error_isInvalidBlock C b.Transactions e h

/-- **C10.**  A block that repeats the same transaction hash at two
positions is rejected by `AddBlock` with an `InvalidBlockError` (given that
its parent is stored, its own row is not yet stored, and — as the enforced
foreign keys guarantee for a fresh hash — no `block_txs` rows exist under
its hash): every transaction is validated against the new block's inclusion
set, which is extended after each applied transaction, so the second
occurrence fails the already-included check even when the parent's inclusion
set contains neither. -/
theorem add_block_rejects_duplicate_tx (C : Crypto PK) (st : Store) (B : Block)
    (hpar : (st.blockByHash B.PreviousHash).isSome = true)
    (hfresh : st.blockExists B.Hash = false)
    (hbt : ∀ p ∈ st.blockTxs, p.1 ≠ B.Hash)
    (i j : Nat) (hij : i < j) (t1 t2 : SignedTx)
    (h1 : B.Transactions[i]? = some t1) (h2 : B.Transactions[j]? = some t2)
    (hh : t1.Hash = t2.Hash) :
    ∃ e, DB.AddBlock C st B = (some e, st) ∧ e.isInvalidBlock = true := by
  obtain ⟨prev, hp⟩ := Option.isSome_iff_exists.1 hpar
  have hred : addBlock C st B =
      match Block.Valid C B prev with
      | .error e => .error e
      | .ok _ =>
        match addBlockTxs C B.Hash B.Transactions B.RewardOutput.Amount
            ((({ st with blocks := st.blocks ++ [(B.Hash, B)] }).copyBalances
              B.Hash B.PreviousHash).copyIncludedTxs B.Hash B.PreviousHash)
        with
        | .error e => .error e
        | .ok (fee, st4) =>
          .ok { (if fee > 0 then
              st4.upsertBalance B.Hash B.RewardOutput.Destination fee
            else st4) with
            balances := (if fee > 0 then
                st4.upsertBalance B.Hash B.RewardOutput.Destination fee
              else st4).balances.filter (fun r => r.2.2 != 0) } := by
    unfold addBlock
    rw [hp, hfresh]
    rfl
  have hErr : ∃ e, addBlock C st B = .error e ∧ e.isInvalidBlock = true := by
    cases hv : Block.Valid C B prev with
    | error e =>
      rw [hv] at hred
      exact ⟨e, hred.trans rfl, blockValid_error_isInvalidBlock C B prev e hv⟩
    | ok u =>
      cases u
      rw [hv] at hred
      have hinv3 : ∀ th,
          (Store.blockTxsContains
            ((({ st with blocks := st.blocks ++ [(B.Hash, B)] }).copyBalances
              B.Hash B.PreviousHash).copyIncludedTxs B.Hash B.PreviousHash)
            B.Hash th) = true →
          (Store.includedContains
            ((({ st with blocks := st.blocks ++ [(B.Hash, B)] }).copyBalances
              B.Hash B.PreviousHash).copyIncludedTxs B.Hash B.PreviousHash)
            B.Hash th) = true := by
        intro th hth
        exfalso
        unfold Store.blockTxsContains at hth
        rcases List.any_eq_true.1 hth with ⟨p, hmem, hp2⟩
        have hmem' : p ∈ st.blockTxs := hmem
        have := hbt p hmem'
        simp only [Bool.and_eq_true, beq_iff_eq] at hp2
        exact this hp2.1
      obtain ⟨e, he⟩ := addBlockTxs_dup_error C B.Hash B.Transactions
        B.RewardOutput.Amount _ hinv3 ⟨i, j, t1, t2, hij, h1, h2, hh⟩
      have hcls := addBlockTxs_error_isInvalidBlock C B.Hash B.Transactions
        B.RewardOutput.Amount _ hinv3 e he
      refine ⟨e, ?_, hcls⟩
      rw [hred, he]
  obtain ⟨e, he, hcls⟩ := hErr
  refine ⟨e, ?_, hcls⟩
  unfold DB.AddBlock
  rw [he]

/-- A block on top of `parentBlockW` that lists the same signed transaction
twice. -/
def dupBlockW : Block :=
  { PreviousHash := hashA, Height := 1, Nonce := 8,
    RewardOutput := { Destination := [], Amount := 0 },
    Transactions := [witnessSignedTx, witnessSignedTx], Hash := hashB }

/-- Witness for C10: adding `dupBlockW` to the store that holds its parent
is rejected with an `InvalidBlockError`, and the store is unchanged. -/
theorem add_block_rejects_duplicate_tx_witness :
    ∃ e, DB.AddBlock trivialCrypto storeP dupBlockW = (some e, storeP) ∧
      e.isInvalidBlock = true :=
  add_block_rejects_duplicate_tx trivialCrypto storeP dupBlockW (by decide)
    (by decide) (by decide) 0 1 (by decide) witnessSignedTx witnessSignedTx
    rfl rfl rfl

end C10

end ChainStore

section Peers

/-- `func (d *DB) PeerExists(peer string) (bool, error)` —
`SELECT 1 FROM peers WHERE peer = ?` (TEXT comparison is exact). -/
def DB.PeerExists (st : Store) (peer : String) : Bool :=
  st.peers.any (fun x => x == peer)

/-- `func (d *DB) AddPeer(peer string) (bool, error)` — `INSERT OR IGNORE
INTO peers (peer) VALUES (?)`; the `created` flag reports
`RowsAffected > 0`, i.e. whether a row was actually inserted. -/
def DB.AddPeer (st : Store) (peer : String) : Bool × Store :=
  if st.peers.any (fun x => x == peer) then (false, st)
  else (true, { st with peers := st.peers ++ [peer] })

/-- `strings.ToLower`, modelled character-wise (`host:port` peer strings are
ASCII, where `Char.toLower` agrees with Go's simple case mapping). -/
def toLowerStr (s : String) : String := ⟨s.data.map Char.toLower⟩

/-- `func (s *Server) validateAndAddPeer(peer string) error` (`server.go`):
lower-case the peer; do nothing if it is the node's own external address or
already known; otherwise — the asynchronous body modelled synchronously,
with the PING outcome as a parameter — insert it on PING success.  The
follow-up notification of other peers and the full sync only issue network
calls to other nodes, so they do not touch this store's peer row for the
added peer. -/
def Server.validateAndAddPeer (extAddr : String) (pingOK : Bool) (st : Store)
    (peer : String) : Store :=
  if toLowerStr peer == extAddr then st
  else if DB.PeerExists st (toLowerStr peer) then st
  else if pingOK then (DB.AddPeer st (toLowerStr peer)).2 else st

/-- **C9.**  Adding peers is idempotent up to capitalization: once a first
`validateAndAddPeer` for `p` has succeeded (peer unknown, not the node
itself, PING fine), the peer set contains `p.toLower`, and a later add of
any capitalization `q` of `p` — through `validateAndAddPeer` against any
external address and PING outcome, or directly through `DB.AddPeer` of the
lower-cased string — creates no second entry and reports that no new peer
was created. -/
theorem add_peer_idempotent_case_insensitive (st : Store)
    (extAddr extAddr2 : String) (b : Bool) (p q : String)
    (hnew : DB.PeerExists st (toLowerStr p) = false)
    (hext : toLowerStr p ≠ extAddr)
    (hq : toLowerStr q = toLowerStr p) :
    DB.PeerExists (Server.validateAndAddPeer extAddr true st p)
      (toLowerStr p) = true ∧
    Server.validateAndAddPeer extAddr2 b
        (Server.validateAndAddPeer extAddr true st p) q =
      Server.validateAndAddPeer extAddr true st p ∧
    DB.AddPeer (Server.validateAndAddPeer extAddr true st p) (toLowerStr q) =
      (false, Server.validateAndAddPeer extAddr true st p) := by
  have hany : (st.peers.any (fun x => x == toLowerStr p)) = false := hnew
  have h1 : Server.validateAndAddPeer extAddr true st p =
      { st with peers := st.peers ++ [toLowerStr p] } := by
    unfold Server.validateAndAddPeer
    rw [if_neg (by simp [hext]), if_neg (by simp [hnew])]
    unfold DB.AddPeer
    rw [hany]
    simp
  have hmem : DB.PeerExists { st with peers := st.peers ++ [toLowerStr p] }
      (toLowerStr p) = true := by
    unfold DB.PeerExists
    simp [List.any_append]
  refine ⟨by rw [h1]; exact hmem, ?_, ?_⟩
  · rw [h1]
    unfold Server.validateAndAddPeer
    cases hc : (toLowerStr q == extAddr2) with
    | true => rw [if_pos rfl]
    | false =>
      rw [if_neg (by simp), if_pos (show DB.PeerExists _ (toLowerStr q) = true
        from by rw [hq]; exact hmem)]
  · rw [h1]
    unfold DB.AddPeer
    rw [show ({ st with peers := st.peers ++ [toLowerStr p] } :
        Store).peers.any (fun x => x == toLowerStr q) = true from by
      rw [hq]; exact hmem]
    simp

/-- Witness for C9, at the peer string `"Node:8080"` re-added as
`"NODE:8080"`. -/
theorem add_peer_idempotent_case_insensitive_witness :
    DB.PeerExists
      (Server.validateAndAddPeer "self:1" true storeP "Node:8080")
      (toLowerStr "Node:8080") = true ∧
    Server.validateAndAddPeer "other:2" false
        (Server.validateAndAddPeer "self:1" true storeP "Node:8080")
        "NODE:8080" =
      Server.validateAndAddPeer "self:1" true storeP "Node:8080" ∧
    DB.AddPeer (Server.validateAndAddPeer "self:1" true storeP "Node:8080")
        (toLowerStr "NODE:8080") =
      (false, Server.validateAndAddPeer "self:1" true storeP "Node:8080") :=
  add_peer_idempotent_case_insensitive storeP "self:1" "other:2" false
    "Node:8080" "NODE:8080" (by decide) (by decide) (by decide)

end Peers

section Retry

/-- The fields of `database.DB` that govern retrying: the attempt budget,
the injected deadlock classifier, and the backoff function (the slept
duration for a given try; the random jitter of the default
`BinaryExponentialBackoff` makes the sampled function a parameter of the
model). -/
structure RetryDB where
  tries : Nat
  isDeadlock : GoError → Bool
  backoff : Nat → Nat

/-- `func Open(driverName, dataSourceName string, isDeadlock, opts...)`
(`database/db.go`) before options are applied: `tries` defaults to 3. -/
def Database.Open (isDeadlock : GoError → Bool) (backoff : Nat → Nat) :
    RetryDB :=
  { tries := 3, isDeadlock := isDeadlock, backoff := backoff }

/-- The `for i := 0; i < tries; i++` loop of `TransactWithRetry`
(`database/tx.go`), running attempts `i, i+1, …` with `remaining = tries - i`
attempts left.  The closure is indexed by the attempt number so that
different attempts may observe different outcomes; each attempt starts from
the caller's store because `Transact` rolls back on error.  The result is
the returned error (if any) with the resulting store, paired with the list
of backoff durations slept between attempts.  `remaining = 0` never arises
from `TransactWithRetry`, which requires `tries ≥ 1`. -/
def retryLoop (d : RetryDB) (f : Nat → Store → Except GoError Store)
    (st : Store) : Nat → Nat → (Option GoError × Store) × List Nat
  | _, 0 => ((none, st), [])
  | i, 1 =>
    match f i st with
    | .ok st' => ((none, st'), [])
    | .error e =>
      if ¬ d.isDeadlock e then ((some e, st), [])
      else ((some (.txError e d.tries), st), [])
  | i, remaining + 2 =>
    match f i st with
    | .ok st' => ((none, st'), [])
    | .error e =>
      if ¬ d.isDeadlock e then ((some e, st), [])
      else
        ((retryLoop d f st (i + 1) (remaining + 1)).1,
         d.backoff i :: (retryLoop d f st (i + 1) (remaining + 1)).2)

/-- `func (d *DB) TransactWithRetry(f func(tx *sql.Tx) error) error`. -/
def DB.TransactWithRetry (d : RetryDB)
    (f : Nat → Store → Except GoError Store) (st : Store) :
    (Option GoError × Store) × List Nat :=
  if d.tries = 0 then
    ((some (.errMsg "database: tries must be 1 or greater"), st), [])
  else retryLoop d f st 0 d.tries

private lemma retryLoop_ok (d : RetryDB)
    (f : Nat → Store → Except GoError Store) (st st' : Store) (i r : Nat)
    (hr : 1 ≤ r) (hf : f i st = .ok st') :
    retryLoop d f st i r = ((none, st'), []) := by
  match r, hr with
  | 1, _ =>
    unfold retryLoop
    rw [hf]
  | r' + 2, _ =>
    unfold retryLoop
    rw [hf]

private lemma retryLoop_err (d : RetryDB)
    (f : Nat → Store → Except GoError Store) (st : Store) (i r : Nat)
    (e : GoError) (hr : 1 ≤ r) (hf : f i st = .error e)
    (hd : d.isDeadlock e = false) :
    retryLoop d f st i r = ((some e, st), []) := by
  match r, hr with
  | 1, _ =>
    conv_lhs => unfold retryLoop
    rw [hf]
    show (if ¬ d.isDeadlock e = true then ((some e, st), ([] : List Nat))
      else ((some (.txError e d.tries), st), [])) = ((some e, st), [])
    rw [hd]
    simp
  | r' + 2, _ =>
    conv_lhs => unfold retryLoop
    rw [hf]
    show (if ¬ d.isDeadlock e = true then ((some e, st), ([] : List Nat))
      else ((retryLoop d f st (i + 1) (r' + 1)).1,
        d.backoff i :: (retryLoop d f st (i + 1) (r' + 1)).2)) =
      ((some e, st), [])
    rw [hd]
    simp

private lemma retryLoop_last_deadlock (d : RetryDB)
    (f : Nat → Store → Except GoError Store) (st : Store) (i : Nat)
    (e : GoError) (hf : f i st = .error e) (hd : d.isDeadlock e = true) :
    retryLoop d f st i 1 = ((some (.txError e d.tries), st), []) := by
  conv_lhs => unfold retryLoop
  rw [hf]
  show (if ¬ d.isDeadlock e = true then ((some e, st), ([] : List Nat))
    else ((some (.txError e d.tries), st), [])) =
    ((some (.txError e d.tries), st), [])
  rw [hd]
  simp

private lemma retryLoop_skip (d : RetryDB)
    (f : Nat → Store → Except GoError Store) (st : Store) :
    ∀ (k i r : Nat), k < r →
    (∀ j < k, ∃ ej, f (i + j) st = .error ej ∧ d.isDeadlock ej = true) →
    retryLoop d f st i r =
      ((retryLoop d f st (i + k) (r - k)).1,
       ((List.range k).map (fun j => d.backoff (i + j))) ++
         (retryLoop d f st (i + k) (r - k)).2) := by
  intro k
  induction k with
  | zero =>
    intro i r _ _
    simp
  | succ k ih =>
    intro i r hkr hdl
    match r, hkr with
    | r'' + 2, hkr =>
      obtain ⟨e0, he0, hd0⟩ := hdl 0 (by omega)
      rw [Nat.add_zero] at he0
      have hstep : retryLoop d f st i (r'' + 2) =
          ((retryLoop d f st (i + 1) (r'' + 1)).1,
           d.backoff i :: (retryLoop d f st (i + 1) (r'' + 1)).2) := by
        conv_lhs => unfold retryLoop
        rw [he0]
        show (if ¬ d.isDeadlock e0 = true then ((some e0, st), ([] : List Nat))
          else ((retryLoop d f st (i + 1) (r'' + 1)).1,
            d.backoff i :: (retryLoop d f st (i + 1) (r'' + 1)).2)) = _
        rw [hd0]
        simp
      rw [hstep, ih (i + 1) (r'' + 1) (by omega)
        (fun j hj => by
          obtain ⟨ej, hej, hdj⟩ := hdl (j + 1) (by omega)
          exact ⟨ej, by rw [show i + 1 + j = i + (j + 1) from by omega]; exact hej, hdj⟩)]
      have e1 : i + 1 + k = i + (k + 1) := by omega
      have e2 : r'' + 1 - k = r'' + 2 - (k + 1) := by omega
      rw [e1, e2]
      have hlist : (List.range (k + 1)).map (fun j => d.backoff (i + j)) =
          d.backoff i ::
            (List.range k).map (fun j => d.backoff (i + 1 + j)) := by
        rw [List.range_succ_eq_map]
        simp only [List.map_cons, List.map_map, Nat.add_zero]
        congr 1
        refine List.map_congr_left (fun a _ => ?_)
        simp only [Function.comp_apply]
        congr 1
        omega
      rw [hlist]
      simp

/-- **C7.**  `TransactWithRetry`: (a) `Open` defaults the attempt budget to
3; and for every closure `f` (indexed by attempt, each attempt starting
from the caller's store because errors roll back): (b) after any run of
deadlock-classified failures, a non-deadlock error is returned verbatim with
the store unchanged, having slept the backoff of each failed attempt;
(c) a success after deadlock failures commits that attempt's store;
(d) when every attempt fails with a deadlock-classified error, the result
wraps the last error together with the attempt count, sleeping between
attempts (`tries - 1` sleeps). -/
theorem transact_with_retry_spec (d : RetryDB)
    (f : Nat → Store → Except GoError Store) (st : Store) :
    (∀ (p : GoError → Bool) (bk : Nat → Nat), (Database.Open p bk).tries = 3) ∧
    (∀ i e, i < d.tries →
      (∀ j < i, ∃ ej, f j st = .error ej ∧ d.isDeadlock ej = true) →
      f i st = .error e → d.isDeadlock e = false →
      DB.TransactWithRetry d f st =
        ((some e, st), (List.range i).map d.backoff)) ∧
    (∀ i st', i < d.tries →
      (∀ j < i, ∃ ej, f j st = .error ej ∧ d.isDeadlock ej = true) →
      f i st = .ok st' →
      DB.TransactWithRetry d f st =
        ((none, st'), (List.range i).map d.backoff)) ∧
    (0 < d.tries →
      (∀ j < d.tries, ∃ ej, f j st = .error ej ∧ d.isDeadlock ej = true) →
      ∃ elast, f (d.tries - 1) st = .error elast ∧
        DB.TransactWithRetry d f st =
          ((some (.txError elast d.tries), st),
           (List.range (d.tries - 1)).map d.backoff)) := by
  have hmap : ∀ k : Nat, (List.range k).map (fun j => d.backoff (0 + j)) =
      (List.range k).map d.backoff := by
    intro k
    refine List.map_congr_left (fun a _ => ?_)
    congr 1
    omega
  refine ⟨fun p bk => rfl, ?_, ?_, ?_⟩
  · intro i e hi hdl hf hd
    unfold DB.TransactWithRetry
    rw [if_neg (by omega)]
    rw [retryLoop_skip d f st i 0 d.tries hi (fun j hj => by
      simpa using hdl j hj)]
    rw [retryLoop_err d f st (0 + i) (d.tries - i) e (by omega)
      (by simpa using hf) hd]
    simp [hmap]
  · intro i st' hi hdl hf
    unfold DB.TransactWithRetry
    rw [if_neg (by omega)]
    rw [retryLoop_skip d f st i 0 d.tries hi (fun j hj => by
      simpa using hdl j hj)]
    rw [retryLoop_ok d f st st' (0 + i) (d.tries - i) (by omega)
      (by simpa using hf)]
    simp [hmap]
  · intro hpos hdl
    obtain ⟨elast, helast, hdlast⟩ := hdl (d.tries - 1) (by omega)
    refine ⟨elast, helast, ?_⟩
    unfold DB.TransactWithRetry
    rw [if_neg (by omega)]
    rw [retryLoop_skip d f st (d.tries - 1) 0 d.tries (by omega)
      (fun j hj => by simpa using hdl j (by omega))]
    rw [show d.tries - (d.tries - 1) = 1 from by omega]
    rw [retryLoop_last_deadlock d f st (0 + (d.tries - 1)) elast
      (by simpa using helast) hdlast]
    simp [hmap]

/-- A deadlock classifier recognizing only the SQLite busy error. -/
def busyOnly : GoError → Bool
  | .sqlite3Error 5 _ => true
  | _ => false

/-- A closure whose first attempt hits a deadlock-classified error and whose
second fails with a plain error. -/
def flakyTx : Nat → Store → Except GoError Store :=
  fun n _ => if n = 0 then .error (.sqlite3Error 5 5)
    else .error (.errMsg "boom")

/-- Witness for C7: under `Open`'s default budget of 3 with backoff
`i ↦ i + 1`, `flakyTx` retries once after the deadlock (sleeping backoff 0)
and then returns the non-deadlock error verbatim with the store unchanged. -/
theorem transact_with_retry_spec_witness :
    DB.TransactWithRetry (Database.Open busyOnly (fun i => i + 1)) flakyTx
        storeP =
      ((some (.errMsg "boom"), storeP), (List.range 1).map (fun i => i + 1)) :=
  (transact_with_retry_spec (Database.Open busyOnly (fun i => i + 1)) flakyTx
      storeP).2.1 1 (.errMsg "boom") (by decide)
    (fun j hj => by
      interval_cases j
      exact ⟨.sqlite3Error 5 5, rfl, rfl⟩)
    rfl rfl

end Retry

section PendingTxs

variable {PK : Type}

/-- `INSERT INTO temp_balances (address, balance) SELECT address, balance
FROM balances WHERE block_hash = ?` — the scratch table seeded from the
tip's balance rows. -/
def tipBalances (st : Store) (tip : Hash) : List (Address × Int) :=
  st.balances.filterMap (fun r =>
    if r.1 == tip then some (r.2.1, r.2.2) else none)

/-- `SELECT balance FROM temp_balances WHERE address = ?`, with
`sql.ErrNoRows` read as balance 0 (as `validTemporaryTx` does). -/
def tempBalanceOf (temp : List (Address × Int)) (a : Address) : Int :=
  ((temp.find? (fun r => r.1 == a)).map (fun r => r.2)).getD 0

/-- `UPDATE temp_balances SET balance = balance - ? WHERE address = ?` — a
no-op when no row matches. -/
def tempSub (temp : List (Address × Int)) (a : Address) (x : Int) :
    List (Address × Int) :=
  temp.map (fun r => if r.1 == a then (r.1, r.2 - x) else r)

/-- `INSERT INTO temp_balances (address, balance) VALUES (?, ?) ON CONFLICT
(address) DO UPDATE SET balance = balance + excluded.balance`. -/
def tempUpsert (temp : List (Address × Int)) (a : Address) (x : Int) :
    List (Address × Int) :=
  if temp.any (fun r => r.1 == a) then
    temp.map (fun r => if r.1 == a then (r.1, r.2 + x) else r)
  else temp ++ [(a, x)]

/-- `func validTemporaryTx(tx *sql.Tx, stx *SignedTx) error`. -/
def validTemporaryTx (C : Crypto PK) (temp : List (Address × Int))
    (stx : SignedTx) : Except GoError Unit :=
  match SignedTx.Valid C stx with
  | .error e => .error e
  | .ok _ =>
    if tempBalanceOf temp stx.Source < stx.RequiredBalance then
      .error (.invalidBlock "cryptopuff: insufficient balance" none)
    else .ok ()

/-- The pending-transaction query of `PendingTxs` and `AllPendingTxs`: rows
of `txs` whose hash is not in the inclusion set at `tip`, in table order. -/
def pendingCandidates (st : Store) (tip : Hash) : List SignedTx :=
  st.txs.filterMap (fun r =>
    if st.includedContains tip r.1 then none else some r.2)

/-- The eviction `DELETE FROM txs WHERE hash = ? AND NOT EXISTS (SELECT 1
FROM block_txs WHERE tx_hash = ?) AND NOT EXISTS (SELECT 1 FROM included_txs
WHERE tx_hash = ?)`. -/
def deleteTxIfUnreferenced (st : Store) (h : Hash) : Store :=
  if st.blockTxs.any (fun p => p.2 == h) ||
     st.includedTxs.any (fun p => p.2 == h) then st
  else { st with txs := st.txs.filter (fun r => r.1 != h) }

/-- The `rows.Next()` loop of `PendingTxs` over the materialized result set,
carrying the accepted transactions, the scratch balances, and the store (for
evictions).  `limit` is a Go `int`.  An accepted transaction is appended and
the scratch balances updated; the loop breaks once `len(stxs) >= limit`. -/
def pendingLoop (C : Crypto PK) (limit : Int) :
    List SignedTx → Store → List SignedTx → List (Address × Int) →
      Except GoError (List SignedTx × Store)
  | [], st, acc, _ => .ok (acc, st)
  | stx :: rest, st, acc, temp =>
    match validTemporaryTx C temp stx with
    | .error e =>
      if e.isInvalidBlock then
        pendingLoop C limit rest (deleteTxIfUnreferenced st stx.Hash) acc temp
      else .error e
    | .ok _ =>
      if (((acc ++ [stx]).length : Int)) ≥ limit then .ok (acc ++ [stx], st)
      else
        pendingLoop C limit rest st (acc ++ [stx])
          (tempUpsert (tempSub temp stx.Source stx.RequiredBalance)
            stx.Destination stx.Amount)

/-- `func (d *DB) PendingTxs(tip Hash, limit int) ([]SignedTx, error)`. -/
def DB.PendingTxs (C : Crypto PK) (st : Store) (tip : Hash) (limit : Int) :
    Except GoError (List SignedTx × Store) :=
  pendingLoop C limit (pendingCandidates st tip) st [] (tipBalances st tip)

/-- The spec's scratch-balance replay: apply the returned transactions in
order to the tip's balance map, subtracting `Amount + Fee` from the source
row and upserting `Amount` onto the destination. -/
def scratchApply (bal : List (Address × Int)) :
    List SignedTx → List (Address × Int)
  | [] => bal
  | stx :: rest =>
    scratchApply (tempUpsert (tempSub bal stx.Source stx.RequiredBalance)
      stx.Destination stx.Amount) rest

private lemma scratchApply_concat (l : List SignedTx) :
    ∀ (bal : List (Address × Int)) (x : SignedTx),
    scratchApply bal (l ++ [x]) =
      tempUpsert (tempSub (scratchApply bal l) x.Source x.RequiredBalance)
        x.Destination x.Amount := by
  induction l with
  | nil => intro bal x; rfl
  | cons y rest ih =>
    intro bal x
    unfold scratchApply
    rw [List.cons_append]
    exact ih _ x

private lemma pendingLoop_cons_invalid (C : Crypto PK) (limit : Int)
    (stx : SignedTx) (rest : List SignedTx) (st : Store)
    (acc : List SignedTx) (temp : List (Address × Int)) (e : GoError)
    (hv : validTemporaryTx C temp stx = .error e)
    (hib : e.isInvalidBlock = true) :
    pendingLoop C limit (stx :: rest) st acc temp =
      pendingLoop C limit rest (deleteTxIfUnreferenced st stx.Hash) acc
        temp := by
  conv_lhs => unfold pendingLoop
  rw [hv]
  show (if e.isInvalidBlock = true then
      pendingLoop C limit rest (deleteTxIfUnreferenced st stx.Hash) acc temp
    else .error e) = _
  rw [hib]
  simp

private lemma pendingLoop_cons_break (C : Crypto PK) (limit : Int)
    (stx : SignedTx) (rest : List SignedTx) (st : Store)
    (acc : List SignedTx) (temp : List (Address × Int))
    (hv : validTemporaryTx C temp stx = .ok ())
    (hl : (((acc ++ [stx]).length : Int)) ≥ limit) :
    pendingLoop C limit (stx :: rest) st acc temp = .ok (acc ++ [stx], st) := by
  conv_lhs => unfold pendingLoop
  rw [hv]
  show (if (((acc ++ [stx]).length : Int)) ≥ limit then
      (.ok (acc ++ [stx], st) : Except GoError (List SignedTx × Store))
    else pendingLoop C limit rest st (acc ++ [stx])
      (tempUpsert (tempSub temp stx.Source stx.RequiredBalance)
        stx.Destination stx.Amount)) = _
  rw [if_pos hl]

private lemma pendingLoop_cons_continue (C : Crypto PK) (limit : Int)
    (stx : SignedTx) (rest : List SignedTx) (st : Store)
    (acc : List SignedTx) (temp : List (Address × Int))
    (hv : validTemporaryTx C temp stx = .ok ())
    (hl : ¬ ((((acc ++ [stx]).length : Int)) ≥ limit)) :
    pendingLoop C limit (stx :: rest) st acc temp =
      pendingLoop C limit rest st (acc ++ [stx])
        (tempUpsert (tempSub temp stx.Source stx.RequiredBalance)
          stx.Destination stx.Amount) := by
  conv_lhs => unfold pendingLoop
  rw [hv]
  show (if (((acc ++ [stx]).length : Int)) ≥ limit then
      (.ok (acc ++ [stx], st) : Except GoError (List SignedTx × Store))
    else pendingLoop C limit rest st (acc ++ [stx])
      (tempUpsert (tempSub temp stx.Source stx.RequiredBalance)
        stx.Destination stx.Amount)) = _
  rw [if_neg hl]

private lemma validTemporaryTx_ok (C : Crypto PK)
    (temp : List (Address × Int)) (stx : SignedTx)
    (h : validTemporaryTx C temp stx = .ok ()) :
    SignedTx.Valid C stx = .ok () ∧
    stx.RequiredBalance ≤ tempBalanceOf temp stx.Source := by
  unfold validTemporaryTx at h
  split at h
  · exact Except.noConfusion h
  · next u hu =>
    split_ifs at h with h1
    cases u
    exact ⟨hu, by omega⟩

private lemma tempBalanceOf_mem (temp : List (Address × Int)) (a : Address)
    (p : Address × Int) (hnd : (temp.map Prod.fst).Nodup) (hp : p ∈ temp)
    (ha : p.1 = a) : tempBalanceOf temp a = p.2 := by
  induction temp with
  | nil => cases hp
  | cons q rest ih =>
    simp only [List.map_cons, List.nodup_cons] at hnd
    rcases List.mem_cons.1 hp with rfl | hp'
    · unfold tempBalanceOf
      rw [List.find?_cons_of_pos _ (by simp [ha])]
      simp
    · have hq : (q.1 == a) = false := by
        simp only [beq_eq_false_iff_ne, ne_eq]
        intro he
        exact hnd.1 (he ▸ ha ▸ List.mem_map.2 ⟨p, hp', rfl⟩)
      unfold tempBalanceOf
      rw [List.find?_cons_of_neg _ (by simp [hq])]
      exact ih hnd.2 hp'

private lemma tempSub_keys (temp : List (Address × Int)) (a : Address)
    (x : Int) : (tempSub temp a x).map Prod.fst = temp.map Prod.fst := by
  unfold tempSub
  rw [List.map_map]
  refine List.map_congr_left (fun p _ => ?_)
  simp only [Function.comp_apply]
  split <;> rfl

private lemma tempSub_nonneg (temp : List (Address × Int)) (a : Address)
    (x : Int) (hnd : (temp.map Prod.fst).Nodup)
    (hnn : ∀ p ∈ temp, 0 ≤ p.2) (hx : x ≤ tempBalanceOf temp a) :
    ∀ p ∈ tempSub temp a x, 0 ≤ p.2 := by
  intro p' hp'
  unfold tempSub at hp'
  rcases List.mem_map.1 hp' with ⟨p, hp, heq⟩
  by_cases hkey : (p.1 == a) = true
  · rw [if_pos hkey] at heq
    have hbal := tempBalanceOf_mem temp a p hnd hp (by simpa using hkey)
    have := hnn p hp
    subst heq
    simp only
    omega
  · rw [if_neg hkey] at heq
    subst heq
    exact hnn p hp

private lemma tempUpsert_nonneg (temp : List (Address × Int)) (a : Address)
    (x : Int) (hnn : ∀ p ∈ temp, 0 ≤ p.2) (hx : 0 ≤ x) :
    ∀ p ∈ tempUpsert temp a x, 0 ≤ p.2 := by
  intro p' hp'
  unfold tempUpsert at hp'
  split_ifs at hp' with hex
  · rcases List.mem_map.1 hp' with ⟨p, hp, heq⟩
    by_cases hkey : (p.1 == a) = true
    · rw [if_pos hkey] at heq
      have := hnn p hp
      subst heq
      simp only
      omega
    · rw [if_neg hkey] at heq
      subst heq
      exact hnn p hp
  · rcases List.mem_append.1 hp' with hp | hp
    · exact hnn p' hp
    · rcases List.mem_singleton.1 hp with rfl
      exact hx

private lemma tempUpsert_keys_nodup (temp : List (Address × Int))
    (a : Address) (x : Int) (hnd : (temp.map Prod.fst).Nodup) :
    ((tempUpsert temp a x).map Prod.fst).Nodup := by
  unfold tempUpsert
  split_ifs with hex
  · have : (temp.map (fun r => if r.1 == a then (r.1, r.2 + x) else r)).map
        Prod.fst = temp.map Prod.fst := by
      rw [List.map_map]
      refine List.map_congr_left (fun p _ => ?_)
      simp only [Function.comp_apply]
      split <;> rfl
    rw [this]
    exact hnd
  · rw [List.map_append]
    simp only [List.map_cons, List.map_nil]
    rw [List.nodup_append]
    refine ⟨hnd, List.nodup_singleton a, ?_⟩
    intro k hk
    simp only [List.mem_singleton]
    intro hka
    subst hka
    rcases List.mem_map.1 hk with ⟨p, hp, hpk⟩
    have : temp.any (fun r => r.1 == k) = true :=
      List.any_eq_true.2 ⟨p, hp, by simp [hpk]⟩
    rw [this] at hex
    exact hex rfl

private lemma pendingLoop_cons_errprop (C : Crypto PK) (limit : Int)
    (stx : SignedTx) (rest : List SignedTx) (st : Store)
    (acc : List SignedTx) (temp : List (Address × Int)) (e : GoError)
    (hv : validTemporaryTx C temp stx = .error e)
    (hib : e.isInvalidBlock = false) :
    pendingLoop C limit (stx :: rest) st acc temp = .error e := by
  conv_lhs => unfold pendingLoop
  rw [hv]
  show (if e.isInvalidBlock = true then
      pendingLoop C limit rest (deleteTxIfUnreferenced st stx.Hash) acc temp
    else .error e) = _
  rw [hib]
  simp

private lemma pendingLoop_length_le (C : Crypto PK) (limit : Int) :
    ∀ (cands : List SignedTx) (st : Store) (acc : List SignedTx)
      (temp : List (Address × Int)),
    ((acc.length : Int) < limit) →
    ∀ r, pendingLoop C limit cands st acc temp = .ok r →
      ((r.1.length : Int) ≤ limit) := by
  intro cands
  induction cands with
  | nil =>
    intro st acc temp hlt r h
    unfold pendingLoop at h
    injection h with h1
    subst h1
    exact le_of_lt hlt
  | cons stx rest ih =>
    intro st acc temp hlt r h
    cases hv : validTemporaryTx C temp stx with
    | error e =>
      cases hib : e.isInvalidBlock with
      | true =>
        rw [pendingLoop_cons_invalid C limit stx rest st acc temp e hv hib]
          at h
        exact ih (deleteTxIfUnreferenced st stx.Hash) acc temp hlt r h
      | false =>
        rw [pendingLoop_cons_errprop C limit stx rest st acc temp e hv hib]
          at h
        exact Except.noConfusion h
    | ok u =>
      cases u
      by_cases hl : (((acc ++ [stx]).length : Int)) ≥ limit
      · rw [pendingLoop_cons_break C limit stx rest st acc temp hv hl] at h
        injection h with h1
        subst h1
        show (((acc ++ [stx]).length : Int)) ≤ limit
        have hc : (((acc ++ [stx]).length : Int)) = (acc.length : Int) + 1 := by
          simp
        omega
      · rw [pendingLoop_cons_continue C limit stx rest st acc temp hv hl] at h
        refine ih st (acc ++ [stx]) _ ?_ r h
        have hc : (((acc ++ [stx]).length : Int)) = (acc.length : Int) + 1 := by
          simp
        omega

private lemma pendingLoop_solvent (C : Crypto PK) (limit : Int)
    (tip0 : List (Address × Int)) :
    ∀ (cands : List SignedTx) (st : Store) (acc : List SignedTx)
      (temp : List (Address × Int)),
    temp = scratchApply tip0 acc →
    (∀ p ∈ temp, 0 ≤ p.2) →
    ((temp.map Prod.fst).Nodup) →
    (∀ n, ∀ p ∈ scratchApply tip0 (acc.take n), 0 ≤ p.2) →
    ∀ r, pendingLoop C limit cands st acc temp = .ok r →
    ∀ n, ∀ p ∈ scratchApply tip0 (r.1.take n), 0 ≤ p.2 := by
  intro cands
  induction cands with
  | nil =>
    intro st acc temp _ _ _ hpre r h
    unfold pendingLoop at h
    injection h with h1
    subst h1
    exact hpre
  | cons stx rest ih =>
    intro st acc temp hacc hnn hnd hpre r h
    cases hv : validTemporaryTx C temp stx with
    | error e =>
      cases hib : e.isInvalidBlock with
      | true =>
        rw [pendingLoop_cons_invalid C limit stx rest st acc temp e hv hib]
          at h
        exact ih (deleteTxIfUnreferenced st stx.Hash) acc temp hacc hnn hnd
          hpre r h
      | false =>
        rw [pendingLoop_cons_errprop C limit stx rest st acc temp e hv hib]
          at h
        exact Except.noConfusion h
    | ok u =>
      cases u
      obtain ⟨hvalid, hbal⟩ := validTemporaryTx_ok C temp stx hv
      obtain ⟨hamt, hfee⟩ := signedTx_valid_ok_pos C stx hvalid
      have hreq : 0 ≤ stx.RequiredBalance := by
        unfold SignedTx.RequiredBalance Tx.RequiredBalance
        unfold SignedTx.Amount at hamt
        unfold SignedTx.Fee at hfee
        omega
      have hndSub : ((tempSub temp stx.Source
          stx.RequiredBalance).map Prod.fst).Nodup := by
        rw [tempSub_keys]
        exact hnd
      have hnnSub : ∀ p ∈ tempSub temp stx.Source stx.RequiredBalance,
          0 ≤ p.2 :=
        tempSub_nonneg temp stx.Source stx.RequiredBalance hnd hnn hbal
      have hnn' : ∀ p ∈ tempUpsert (tempSub temp stx.Source
          stx.RequiredBalance) stx.Destination stx.Amount, 0 ≤ p.2 :=
        tempUpsert_nonneg _ stx.Destination stx.Amount hnnSub
          (by unfold SignedTx.Amount at hamt ⊢; omega)
      have hnd' : ((tempUpsert (tempSub temp stx.Source
          stx.RequiredBalance) stx.Destination stx.Amount).map
          Prod.fst).Nodup :=
        tempUpsert_keys_nodup _ stx.Destination stx.Amount hndSub
      have hacc' : tempUpsert (tempSub temp stx.Source stx.RequiredBalance)
          stx.Destination stx.Amount = scratchApply tip0 (acc ++ [stx]) := by
        rw [scratchApply_concat, ← hacc]
      have hpre' : ∀ n, ∀ p ∈ scratchApply tip0 ((acc ++ [stx]).take n),
          0 ≤ p.2 := by
        intro n p hp
        by_cases hn : n ≤ acc.length
        · rw [List.take_append_of_le_length hn] at hp
          exact hpre n p hp
        · rw [List.take_of_length_le
            (by simp only [List.length_append, List.length_singleton]; omega)]
            at hp
          rw [← hacc'] at hp
          exact hnn' p hp
      by_cases hl : (((acc ++ [stx]).length : Int)) ≥ limit
      · rw [pendingLoop_cons_break C limit stx rest st acc temp hv hl] at h
        injection h with h1
        subst h1
        exact hpre'
      · rw [pendingLoop_cons_continue C limit stx rest st acc temp hv hl] at h
        exact ih st (acc ++ [stx])
          (tempUpsert (tempSub temp stx.Source stx.RequiredBalance)
            stx.Destination stx.Amount) hacc' hnn' hnd' hpre' r h

/-- **C8 (amended).**  `PendingTxs(tip, limit)`: for `limit ≥ 1` at most
`limit` transactions are returned (for `limit ≤ 0` the loop still returns
the first accepted transaction, because the length check runs only after an
append); and — for every limit — replaying the returned transactions in
order onto the tip's balance map (subtract `Amount + Fee` from the source
row, upsert `Amount` onto the destination) keeps every balance, in
particular every source's, non-negative after every prefix, provided the
tip's balance rows are non-negative with distinct addresses (their primary
key). -/
theorem pending_txs_limit_and_solvency (C : Crypto PK) (st : Store)
    (tip : Hash) (limit : Int) :
    (1 ≤ limit → ∀ r, DB.PendingTxs C st tip limit = .ok r →
      ((r.1.length : Int) ≤ limit)) ∧
    ((∀ p ∈ tipBalances st tip, 0 ≤ p.2) →
     (((tipBalances st tip).map Prod.fst).Nodup) →
     ∀ r, DB.PendingTxs C st tip limit = .ok r →
       ∀ n, ∀ p ∈ scratchApply (tipBalances st tip) (r.1.take n), 0 ≤ p.2) := by
  constructor
  · intro hlim r h
    refine pendingLoop_length_le C limit (pendingCandidates st tip) st []
      (tipBalances st tip) ?_ r h
    simp only [List.length_nil, Int.natCast_zero]
    omega
  · intro hnn hnd r h
    refine pendingLoop_solvent C limit (tipBalances st tip)
      (pendingCandidates st tip) st [] (tipBalances st tip) rfl hnn hnd
      ?_ r h
    intro n p hp
    rw [List.take_nil] at hp
    exact hnn p hp

/-- A store holding the witness parent block, a tip balance of 5 coins for
the V1 witness address, and `witnessSignedTx` pending in the `txs` table. -/
def storeTx : Store :=
  { blocks := [(hashA, parentBlockW)],
    balances := [(hashA, [0, 0], 5)],
    includedTxs := [], blockTxs := [],
    txs := [(witnessSignedTx.Hash, witnessSignedTx)], peers := [] }

/-- **C8 (counterexample).**  With `limit = 0` (and likewise any
non-positive limit), `PendingTxs` still returns one transaction — more than
`limit` — because the `len(stxs) >= limit` check runs only after the first
append.  So "returns at most `limit` transactions for every limit" is false
as stated. -/
theorem pending_txs_zero_limit_counterexample :
    DB.PendingTxs trivialCrypto storeTx hashA 0 =
      .ok ([witnessSignedTx], storeTx) ∧
    ¬ ((([witnessSignedTx] : List SignedTx).length : Int) ≤ 0) :=
  ⟨rfl, by decide⟩

/-- Witness for the amended C8 theorem at `limit = 1` on `storeTx`. -/
theorem pending_txs_limit_and_solvency_witness :
    ((([witnessSignedTx] : List SignedTx).length : Int) ≤ 1) ∧
    (∀ p ∈ scratchApply (tipBalances storeTx hashA)
        (([witnessSignedTx] : List SignedTx).take 1), 0 ≤ p.2) :=
  ⟨(pending_txs_limit_and_solvency trivialCrypto storeTx hashA 1).1
      (by norm_num) ([witnessSignedTx], storeTx) rfl,
   (pending_txs_limit_and_solvency trivialCrypto storeTx hashA 1).2
      (by decide) (by decide) ([witnessSignedTx], storeTx) rfl 1⟩

end PendingTxs

end Cryptopuff
